import Mathlib

/-! Telegram Auto-Join Bot: verification of `src/index.js`.

JavaScript strings are embedded as `List Char` (type `Str`).  The regular
expressions of the source have no `u` flag, so `\d` is exactly `0`-`9`; a
character outside the Basic Multilingual Plane is two UTF-16 units, neither of
them a digit or one of the ASCII characters the source tests for, so reading
the string as code points instead of UTF-16 units changes nothing.

Remote calls (the protocol client, the file system) are embedded as explicit
outcome records: every call either succeeds or throws with a message.
Handlers pass the process state explicitly and append the remote calls they
make to a trace.
-/

namespace AutoJoin

/-- A JavaScript string. -/
abbrev Str := List Char

/-! ## String primitives used by the source -/

/-- `s.startsWith(p)`. -/
def startsWith (s p : Str) : Bool := p.isPrefixOf s

/-- `s.includes(p)`: `p` occurs somewhere in `s`. -/
def includes : Str → Str → Bool
  | [], p => p.isPrefixOf []
  | c :: cs, p => p.isPrefixOf (c :: cs) || includes cs p

/-- Scanning loop of `String.prototype.split` for a non-empty separator:
`skip` counts the characters of a separator just matched that are still to be
passed over, `cur` is the current piece, reversed. -/
def splitGo (sep : Str) : Nat → Str → Str → List Str
  | _, cur, [] => [cur.reverse]
  | skip + 1, cur, _ :: cs => splitGo sep skip cur cs
  | 0, cur, c :: cs =>
    if sep.isPrefixOf (c :: cs) then cur.reverse :: splitGo sep (sep.length - 1) [] cs
    else splitGo sep 0 (c :: cur) cs

/-- `s.split(sep)` for a string separator: the pieces between successive
non-overlapping occurrences of `sep`, found left to right.  With the empty
separator JavaScript yields the single characters. -/
def split (s sep : Str) : List Str :=
  if sep = [] then s.map (fun c => [c]) else splitGo sep 0 [] s

/-- `s.replace(/[^\d+]/g, "")`: delete every character that is neither an ASCII
digit nor `+`. -/
def stripNonPhone (s : Str) : Str := s.filter (fun c => c.isDigit || c == '+')

/-- Greedy match of `\d{lo,hi}` at the head of `s`: the rest of the input after
taking as many digits as possible, at most `hi`; `none` when fewer than `lo`
digits are there. -/
def matchDigits : Nat → Nat → Str → Option Str
  | lo, hi + 1, c :: cs =>
    if c.isDigit then matchDigits (lo - 1) hi cs
    else if lo = 0 then some (c :: cs) else none
  | lo, _, s => if lo = 0 then some s else none

/-- `/^\+\d{10,15}$/.test(s)`.  After the greedy digit run the pattern requires
the end of input; taking fewer digits cannot help, because the next character
would then be a digit. -/
def testPlusDigits (s : Str) : Bool :=
  match s with
  | '+' :: ds =>
    match matchDigits 10 15 ds with
    | some [] => true
    | _ => false
  | _ => false

/-! ## Interactive flow state -/

/-- The `step` field of a flow. -/
inductive FlowStep
  | join_link | phone | connecting | code | password
  deriving DecidableEq, Repr

/-- An entry of `pendingFlows`: `{ step, chatId, phone? }`. -/
structure Flow where
  step : FlowStep
  chatId : Nat
  phone : Option Str := none
  deriving DecidableEq, Repr

/-- What the phone step of `handleFlow` answers. -/
inductive PhoneReply
  | invalidFormat
  | connecting (phone : Str)
  deriving DecidableEq, Repr

/-- The phone normalisation of `handleFlow` (lines 568-569). -/
def normalizePhone (text : Str) : Str :=
  let phone := stripNonPhone text
  if !startsWith phone ['+'] then '+' :: phone else phone

/-- The branch `flow.step === "phone"` of `handleFlow`: returns the reply and
the flow as it is afterwards. -/
def handleFlowPhone (text : Str) (flow : Flow) : PhoneReply × Flow :=
  let phone := normalizePhone text
  if !testPlusDigits phone then (PhoneReply.invalidFormat, flow)
  else (PhoneReply.connecting phone, { flow with phone := some phone, step := FlowStep.connecting })

/-- Following the specification: `s` is `+` followed by 10 to 15 digits. -/
def IsPlusDigits (s : Str) : Prop :=
  ∃ ds : Str, s = '+' :: ds ∧ (∀ c ∈ ds, c.isDigit = true) ∧ 10 ≤ ds.length ∧ ds.length ≤ 15

/-- Following the specification: remove every character that is neither a digit
nor `+`, then prefix `+` when the result does not already start with `+`. -/
def specNormalizePhone (text : Str) : Str :=
  let kept := text.filter (fun c => decide (c.isDigit = true ∨ c = '+'))
  match kept with
  | '+' :: _ => kept
  | _ => '+' :: kept

/-! ## Dictionaries (JavaScript objects used as maps) -/

/-- A JavaScript object used as a map from names to values, with its entries in
the order `Object.entries` lists them. -/
abbrev Dict (α : Type) := List (Str × α)

/-- The own property `name` of the object, `none` when it has none.  What
`obj[name]` evaluates to is `Dict.lookup`, which also sees the members every
object inherits. -/
def Dict.get {α : Type} (name : Str) : Dict α → Option α
  | [] => none
  | (k, v) :: rest => if k = name then some v else Dict.get name rest

/-- `obj[name] = v`: overwrite in place when the key exists, else add the key
(last in `Object.entries` order, as JavaScript does for a key that is not an
array index).  The one name for which an assignment does something else is
`__proto__` without such an own property (it sets the prototype); the source
can only reach that at line 695, for an account whose display name is
`__proto__`. -/
def Dict.set {α : Type} (name : Str) (v : α) : Dict α → Dict α
  | [] => [(name, v)]
  | (k, w) :: rest => if k = name then (k, v) :: rest else (k, w) :: Dict.set name v rest

/-- `delete obj[name]`. -/
def Dict.delete {α : Type} (name : Str) : Dict α → Dict α
  | [] => []
  | (k, v) :: rest => if k = name then Dict.delete name rest else (k, v) :: Dict.delete name rest

/-- The names of the members a plain object inherits from `Object.prototype`:
eleven functions and the accessor `__proto__`, whose value is the prototype. -/
def inheritedKeys : List Str :=
  ["constructor".toList, "__proto__".toList, "hasOwnProperty".toList, "isPrototypeOf".toList,
    "propertyIsEnumerable".toList, "toLocaleString".toList, "toString".toList,
    "valueOf".toList, "__defineGetter__".toList, "__defineSetter__".toList,
    "__lookupGetter__".toList, "__lookupSetter__".toList]

/-- What `obj[name]` evaluates to on a plain object used as a map: the value of
the own property, else the inherited member (a function or the prototype object,
truthy and neither an array nor a profile), else `undefined`. -/
inductive Lookup (α : Type)
  | own (v : α)
  | inherited
  | undefined
  deriving DecidableEq, Repr

/-- `obj[name]`. -/
def Dict.lookup {α : Type} (name : Str) (d : Dict α) : Lookup α :=
  match Dict.get name d with
  | some v => Lookup.own v
  | none => if name ∈ inheritedKeys then Lookup.inherited else Lookup.undefined

/-- The Membership Record `joinedChannels`: session name to joined targets. -/
abbrev Ledger := Dict (List Str)

/-- An entry of `sessionsInfo`. -/
structure Profile where
  phone : Str
  userId : Str
  username : Str
  firstName : Str
  lastName : Str
  createdAt : Str
  deriving DecidableEq, Repr

/-! ## Remote calls and the process state -/

/-- How an awaited external call ends: `none` when it returns, `some msg` when
it throws an error whose message is `msg`. -/
abbrev Outcome := Option Str

/-- The external calls the handlers make on a session's client. -/
inductive Call
  | connect
  | joinChannel (channel : Str)
  | importChatInvite (hash : Str)
  | leaveChannel (channel : Str)
  | getMe
  | getEntity (username : Str)
  | deleteChatUser (username : Str)
  | disconnect
  | sleep (ms : Nat)
  deriving DecidableEq, Repr

/-- One entry of the trace: the session whose client is used, the call, and
whether the call returned (`true`) or threw (`false`). -/
structure Event where
  session : Str
  call : Call
  ok : Bool
  deriving DecidableEq, Repr

/-- The mutable state the handlers share: the files of `SESSIONS_DIR` (name and
content), the two in-memory maps, and the trace of external calls made. -/
structure World where
  files : Dict Str
  joinedChannels : Ledger
  sessionsInfo : Dict Profile
  trace : List Event
  deriving DecidableEq, Repr

/-- Record an external call in the trace. -/
def World.log (w : World) (session : Str) (call : Call) (o : Outcome) : World :=
  { w with trace := w.trace ++ [⟨session, call, o.isNone⟩] }

/-- The session file suffix. -/
def sessionExt : Str := ".session".toList

/-- `s.endsWith(p)`. -/
def endsWith (s p : Str) : Bool := p.isSuffixOf s

/-- `s.replace(pat, rep)` with a string pattern: only the first occurrence is
replaced. -/
def replaceFirst (pat rep : Str) : Str → Str
  | [] => if pat.isPrefixOf [] then rep else []
  | c :: cs =>
    if pat.isPrefixOf (c :: cs) then rep ++ (c :: cs).drop pat.length
    else c :: replaceFirst pat rep cs

/-- `getAvailableSessions()`: the directory entries that end in `.session`.  A
`readdir` that throws gives `[]`, which is what an empty directory gives. -/
def getAvailableSessions (w : World) : List Str :=
  (w.files.map Prod.fst).filter (fun f => endsWith f sessionExt)

/-- `sessionFile.replace(".session", "")`. -/
def sessionNameOf (file : Str) : Str := replaceFirst sessionExt [] file

/-- Message of the error `fs.readFile`/`fs.unlink` throw for a missing file. -/
def enoent : Str := "ENOENT: no such file or directory".toList

/-! ## Join -/

/-- The handle passed to the protocol calls (lines 891-896 of
`joinChannelWithSession`, and the same lines 387-392 of `confirm_leave_all`).
Index 1 of the first split exists whenever the guard `includes` holds
(`two_le_length_split`). -/
def joinUsername (link : Str) : Str :=
  if includes link "t.me/".toList then
    ((split ((split ((split link "t.me/".toList).getD 1 []) "?".toList).getD 0 [])
      "/".toList).getD 0 [])
  else if startsWith link "@".toList then link.drop 1
  else link

/-- The handle shown to the operator (lines 751-756 of
`handleChannelJoinRequest`). -/
def displayUsername (link : Str) : Str :=
  if includes link "t.me/".toList then
    '@' :: ((split ((split ((split link "t.me/".toList).getD 1 []) "?".toList).getD 0 [])
      "/".toList).getD 0 [])
  else if !startsWith link "@".toList then '@' :: link
  else link

/-- Outcomes of the external calls of one `joinChannelWithSession` run. -/
structure JoinRemote where
  readFile : Outcome
  connect : Outcome
  joinChannel : Outcome
  importChatInvite : Outcome
  save : Outcome
  disconnect : Outcome
  deriving DecidableEq, Repr

/-- The value `joinChannelWithSession` returns. -/
structure JoinResult where
  success : Bool
  error : Option Str
  deriving DecidableEq, Repr

/-- Lines 916-917: disconnect, then return normally. -/
def joinDisconnect (r : JoinRemote) (sessionName : Str) (w : World) : Outcome × World :=
  (r.disconnect, w.log sessionName Call.disconnect r.disconnect)

/-- Lines 906-914: the ledger update after a join call went through, for a
session whose `joinedChannels[sessionName]` is a record or `undefined`.  `lc` is
`String.prototype.toLowerCase`.  Returns the ledger afterwards and whether
`push` ran. -/
def joinLedgerUpdate (lc : Str → Str) (sessionName link : Str) (L : Ledger) : Ledger × Bool :=
  let L1 := if (Dict.get sessionName L).isNone then Dict.set sessionName [] L else L
  let chs := (Dict.get sessionName L1).getD []
  if !(chs.any (fun ch => decide (lc ch = lc link))) then
    (Dict.set sessionName (chs ++ [link]) L1, true)
  else (L1, false)

/-- Message of the TypeError of line 908 when `joinedChannels[sessionName]` is
an inherited member, which has no method `some`. -/
def someNotFunction : Str := "joinedChannels[sessionName].some is not a function".toList

/-- Lines 906-917 for a session whose `joinedChannels[sessionName]` is a record
or `undefined`. -/
def joinRecordUpdate (lc : Str → Str) (r : JoinRemote) (sessionName link : Str) (w : World) :
    Outcome × World :=
  let upd := joinLedgerUpdate lc sessionName link w.joinedChannels
  let w1 := { w with joinedChannels := upd.1 }
  if upd.2 then
    match r.save with
    | some e => (some e, w1)
    | none => joinDisconnect r sessionName w1
  else joinDisconnect r sessionName w1

/-- Lines 906-917.  When `joinedChannels[sessionName]` is an inherited member
it is truthy, so line 906 leaves it, and the call of `.some` at line 908
throws. -/
def joinRecord (lc : Str → Str) (r : JoinRemote) (sessionName link : Str) (w : World) :
    Outcome × World :=
  match Dict.lookup sessionName w.joinedChannels with
  | Lookup.inherited => (some someNotFunction, w)
  | _ => joinRecordUpdate lc r sessionName link w

/-- The `try` block of `joinChannelWithSession`: the error thrown, if any, and
the state at that point. -/
def joinBody (lc : Str → Str) (r : JoinRemote) (sessionName link : Str) (w : World) :
    Outcome × World :=
  match Dict.get (sessionName ++ sessionExt) w.files with
  | none => (some enoent, w)
  | some _ =>
    match r.readFile with
    | some e => (some e, w)
    | none =>
      let w1 := w.log sessionName Call.connect r.connect
      match r.connect with
      | some e => (some e, w1)
      | none =>
        let username := joinUsername link
        let w2 := w1.log sessionName (Call.joinChannel username) r.joinChannel
        match r.joinChannel with
        | none => joinRecord lc r sessionName link w2
        | some _ =>
          let w3 := w2.log sessionName (Call.importChatInvite username) r.importChatInvite
          match r.importChatInvite with
          | some e => (some e, w3)
          | none => joinRecord lc r sessionName link w3

/-- `joinChannelWithSession(sessionName, link)`. -/
def joinChannelWithSession (lc : Str → Str) (r : JoinRemote) (sessionName link : Str)
    (w : World) : JoinResult × World :=
  match joinBody lc r sessionName link w with
  | (none, w1) => (⟨true, none⟩, w1)
  | (some e, w1) => (⟨false, some e⟩, w1)

/-- What a call of the join function does inside the loop of
`processJoinRequest`: it returns a result or throws. -/
abbrev JoinFn := Nat → Str → Str → World → Except Str JoinResult × World

/-- The line pushed to `results` for one session. -/
def resultLine (name : Str) (ret : Except Str JoinResult) : Str :=
  match ret with
  | Except.ok ⟨true, _⟩ => "+ ".toList ++ name
  | Except.ok ⟨false, err⟩ => "- ".toList ++ name ++ ": ".toList ++ err.getD "undefined".toList
  | Except.error msg => "- ".toList ++ name ++ ": ".toList ++ msg

/-- Whether a call of the join function counts as a success (line 825). -/
def retSuccess (ret : Except Str JoinResult) : Bool :=
  match ret with
  | Except.ok r => r.success
  | Except.error _ => false

/-- Accumulators of the loop of `processJoinRequest`. -/
structure JoinReport where
  results : List Str
  successCount : Nat
  total : Nat
  deriving DecidableEq, Repr

/-- The `for` loop of `processJoinRequest` (lines 817-839) from index `i` on,
`sessions` being the files still to process. -/
def joinLoop (join : JoinFn) (delay : Nat) (link : Str) :
    Nat → List Str → List Str → Nat → World → (List Str × Nat) × World
  | _, [], results, successCount, w => ((results, successCount), w)
  | i, file :: rest, results, successCount, w =>
    let name := sessionNameOf file
    let w1 := if i > 0 then w.log name (Call.sleep delay) none else w
    let (ret, w2) := join i name link w1
    joinLoop join delay link (i + 1) rest (results ++ [resultLine name ret])
      (if retSuccess ret then successCount + 1 else successCount) w2

/-- The body of `processJoinRequest` once `sessions` is known (lines 814-847);
`delay` is `JOIN_DELAY_MS`. -/
def processJoinRequestOn (join : JoinFn) (delay : Nat) (sessions : List Str) (link : Str)
    (w : World) : JoinReport × World :=
  let out := joinLoop join delay link 0 sessions [] 0 w
  (⟨out.1.1, out.1.2, sessions.length⟩, out.2)

/-- The join function of the source: `joinChannelWithSession`, the `i`-th call
meeting the remote outcomes `rem i`. -/
def joinWith (lc : Str → Str) (rem : Nat → JoinRemote) : JoinFn :=
  fun i name link w =>
    let out := joinChannelWithSession lc (rem i) name link w
    (Except.ok out.1, out.2)

/-- `processJoinRequest(ctx, link, isCallback)`. -/
def processJoinRequest (lc : Str → Str) (rem : Nat → JoinRemote) (delay : Nat) (link : Str)
    (w : World) : JoinReport × World :=
  processJoinRequestOn (joinWith lc rem) delay (getAvailableSessions w) link w

/-- Following the specification: the join calls made for a session list, in
order, every call starting from the state the previous one left, whatever the
previous calls returned.  Each entry is the session name and what its call
returned. -/
def joinAttempts (join : JoinFn) (delay : Nat) (link : Str) :
    Nat → List Str → World → List (Str × Except Str JoinResult)
  | _, [], _ => []
  | i, file :: rest, w =>
    let name := sessionNameOf file
    let w1 := if i > 0 then w.log name (Call.sleep delay) none else w
    let out := join i name link w1
    (name, out.1) :: joinAttempts join delay link (i + 1) rest out.2

/-! ## Join request (pre-check) -/

/-- What `handleChannelJoinRequest` replies. -/
inductive JoinRequestReply
  | noSessions
  | alreadyJoined (username : Str) (sessions : List Str) (available : Nat) (force : Str)
  | confirmJoin (username : Str) (available : Nat) (force : Str)
  deriving DecidableEq, Repr

/-- Lines 742-747: the names pushed to `alreadyJoined`, one pass over
`Object.entries(joinedChannels)`. -/
def alreadyJoinedLoop (lc : Str → Str) (link : Str) : Ledger → List Str → List Str
  | [], acc => acc
  | (name, channels) :: rest, acc =>
    if channels.any (fun ch => decide (lc ch = lc link)) then
      alreadyJoinedLoop lc link rest (acc ++ [name])
    else alreadyJoinedLoop lc link rest acc

/-- `handleChannelJoinRequest(ctx, link)`: the reply and the state afterwards.
The callback data of the button is `force_join_` followed by the encoded link;
the link itself stands for it here. -/
def handleChannelJoinRequest (lc : Str → Str) (link : Str) (w : World) :
    JoinRequestReply × World :=
  let sessions := getAvailableSessions w
  if sessions.length = 0 then (JoinRequestReply.noSessions, w)
  else
    let alreadyJoined := alreadyJoinedLoop lc link w.joinedChannels []
    let username := displayUsername link
    if alreadyJoined.length > 0 then
      (JoinRequestReply.alreadyJoined username alreadyJoined sessions.length link, w)
    else (JoinRequestReply.confirmJoin username sessions.length link, w)

/-! ## Leave all -/

/-- Outcomes of the external calls for one target of `confirm_leave_all`. -/
structure LeaveTargetRemote where
  leaveChannel : Outcome
  getMe : Outcome
  getEntity : Outcome
  deleteChatUser : Outcome
  deriving DecidableEq, Repr

/-- Outcomes of the external calls for one session of `confirm_leave_all`;
`target li` belongs to the target at index `li` of `channels`. -/
structure LeaveRemote where
  readFile : Outcome
  connect : Outcome
  target : Nat → LeaveTargetRemote
  disconnect : Outcome

/-- Lines 394-407: the primary leave call and, when it throws, the fallback
(`getMe`, `getEntity`, `DeleteChatUser`).  The result is the error that
escapes, if any. -/
def leaveCalls (t : LeaveTargetRemote) (name username : Str) (w : World) : Outcome × World :=
  let w1 := w.log name (Call.leaveChannel username) t.leaveChannel
  match t.leaveChannel with
  | none => (none, w1)
  | some _ =>
    let w2 := w1.log name Call.getMe t.getMe
    match t.getMe with
    | some e => (some e, w2)
    | none =>
      let w3 := w2.log name (Call.getEntity username) t.getEntity
      match t.getEntity with
      | some e => (some e, w3)
      | none => (t.deleteChatUser, w3.log name (Call.deleteChatUser username) t.deleteChatUser)

/-- Lines 409-411: `joinedChannels[name] = joinedChannels[name].filter(ch => ch !== link)`;
`none` when `joinedChannels[name]` is `undefined`, where `filter` throws. -/
def leaveLedgerUpdate (name link : Str) (L : Ledger) : Option Ledger :=
  match Dict.get name L with
  | none => none
  | some chs => some (Dict.set name (chs.filter (fun ch => decide (ch ≠ link))) L)

/-- Lines 386-421: the inner `try` for one target; `true` when the target is
counted as left, `false` when the `catch` counts it as failed. -/
def leaveTarget (t : LeaveTargetRemote) (name link : Str) (w : World) : Bool × World :=
  match leaveCalls t name (joinUsername link) w with
  | (some _, w1) => (false, w1)
  | (none, w1) =>
    match leaveLedgerUpdate name link w1.joinedChannels with
    | none => (false, w1)
    | some L => (true, { w1 with joinedChannels := L })

/-- The four counters of `confirm_leave_all`. -/
structure LeaveCounters where
  sessionSuccess : Nat
  sessionFail : Nat
  totalSuccess : Nat
  totalFail : Nat
  deriving DecidableEq, Repr

/-- Lines 383-422: the loop over `channels` from index `li` on. -/
def leaveTargets (r : LeaveRemote) (name : Str) :
    Nat → List Str → LeaveCounters → World → LeaveCounters × World
  | _, [], c, w => (c, w)
  | li, link :: rest, c, w =>
    let w1 := if li > 0 then w.log name (Call.sleep 2000) none else w
    let out := leaveTarget (r.target li) name link w1
    let c1 : LeaveCounters :=
      if out.1 then { c with sessionSuccess := c.sessionSuccess + 1,
                             totalSuccess := c.totalSuccess + 1 }
      else { c with sessionFail := c.sessionFail + 1, totalFail := c.totalFail + 1 }
    leaveTargets r name (li + 1) rest c1 out.2

/-- Lines 365-425: the outer `try` block for one session; the error that
reaches the outer `catch`, if any. -/
def leaveSessionBody (r : LeaveRemote) (name : Str) (channels : List Str) (c : LeaveCounters)
    (w : World) : Outcome × LeaveCounters × World :=
  match Dict.get (name ++ sessionExt) w.files with
  | none => (some enoent, c, w)
  | some _ =>
    match r.readFile with
    | some e => (some e, c, w)
    | none =>
      let w1 := w.log name Call.connect r.connect
      match r.connect with
      | some e => (some e, c, w1)
      | none =>
        let out := leaveTargets r name 0 channels c w1
        (r.disconnect, out.1, out.2.log name Call.disconnect r.disconnect)

/-- A line of the per-session report: name, left, failed. -/
structure LeaveLine where
  name : Str
  left : Nat
  failed : Nat
  deriving DecidableEq, Repr

/-- Accumulators of the session loop of `confirm_leave_all`. -/
structure LeaveAcc where
  results : List LeaveLine
  totalSuccess : Nat
  totalFail : Nat
  deriving DecidableEq, Repr

/-- Lines 353-433: one iteration of the session loop, for a session whose
`joinedChannels[name]` is a record or `undefined` (see `leaveIteration`). -/
def leaveSession (r : LeaveRemote) (file : Str) (acc : LeaveAcc) (w : World) :
    LeaveAcc × World :=
  let name := sessionNameOf file
  let channels := (Dict.get name w.joinedChannels).getD []
  if channels.length = 0 then (acc, w)
  else
    let c0 : LeaveCounters := ⟨0, 0, acc.totalSuccess, acc.totalFail⟩
    let out := leaveSessionBody r name channels c0 w
    let c1 : LeaveCounters :=
      match out.1 with
      | none => out.2.1
      | some _ => { out.2.1 with sessionFail := out.2.1.sessionFail + channels.length,
                                 totalFail := out.2.1.totalFail + channels.length }
    (⟨acc.results ++ [⟨name, c1.sessionSuccess, c1.sessionFail⟩],
      c1.totalSuccess, c1.totalFail⟩, out.2.2)

/-- Message of the TypeError of line 355 when `joinedChannels[name]` is an
inherited member, which cannot be spread. -/
def notIterable : Str := "joinedChannels[name] is not iterable".toList

/-- Lines 353-433: one iteration of the session loop.  Line 355 spreads
`joinedChannels[name] || []`; an inherited member is truthy and not iterable,
so the spread throws, outside the `try` of line 365.  The result is the error
that leaves the loop, if any, with the accumulators and the state. -/
def leaveIteration (r : LeaveRemote) (file : Str) (acc : LeaveAcc) (w : World) :
    Outcome × LeaveAcc × World :=
  match Dict.lookup (sessionNameOf file) w.joinedChannels with
  | Lookup.inherited => (some notIterable, acc, w)
  | _ => (none, leaveSession r file acc w)

/-- Lines 353-433: the session loop from index `i` on; `rem i` are the remote
outcomes met by the session at index `i` of `sessions`.  An error thrown by an
iteration ends the loop. -/
def leaveSessions (rem : Nat → LeaveRemote) :
    Nat → List Str → LeaveAcc → World → Outcome × LeaveAcc × World
  | _, [], acc, w => (none, acc, w)
  | i, file :: rest, acc, w =>
    match leaveIteration (rem i) file acc w with
    | (some e, acc1, w1) => (some e, acc1, w1)
    | (none, acc1, w1) => leaveSessions rem (i + 1) rest acc1 w1

/-- The handler `confirm_leave_all`: the report shown and the state afterwards.
There is no report (`none`) when the loop throws, which ends the handler
before `saveJoinedChannels`, or when the final `saveJoinedChannels` throws. -/
def confirmLeaveAll (rem : Nat → LeaveRemote) (save : Outcome) (w : World) :
    Option LeaveAcc × World :=
  match leaveSessions rem 0 (getAvailableSessions w) ⟨[], 0, 0⟩ w with
  | (some _, _, w1) => (none, w1)
  | (none, acc, w1) =>
    match save with
    | some _ => (none, w1)
    | none => (some acc, w1)

/-- Whether the leave of a target goes through: the primary call returns, or
all three calls of the remove-self fallback do. -/
def leaveSucceeds (t : LeaveTargetRemote) : Bool :=
  t.leaveChannel.isNone || (t.getMe.isNone && t.getEntity.isNone && t.deleteChatUser.isNone)

/-- Whether the connection of a session is established: its file is read and
`connect` returns. -/
def connects (r : LeaveRemote) (name : Str) (w : World) : Bool :=
  (Dict.get (name ++ sessionExt) w.files).isSome && r.readFile.isNone && r.connect.isNone

/-- Following the specification: the sub-list, in original order, of the
targets whose leave did not succeed; the first target has index `li`. -/
def keptTargets (r : LeaveRemote) : Nat → List Str → List Str
  | _, [] => []
  | li, link :: rest =>
    if leaveSucceeds (r.target li) then keptTargets r (li + 1) rest
    else link :: keptTargets r (li + 1) rest

/-- The trace of `w1` extends that of `w` by calls on the client of `name`. -/
def TraceExt (name : Str) (w w1 : World) : Prop :=
  ∃ evs : List Event, w1.trace = w.trace ++ evs ∧ ∀ e ∈ evs, e.session = name

/-- The session loop of `confirm_leave_all` run on the first `i` files of the
listing only: the error that ended it before the file at index `i` was reached,
if any, with the accumulators and the state at that point. -/
def leaveAllPrefix (rem : Nat → LeaveRemote) (w : World) (i : Nat) :
    Outcome × LeaveAcc × World :=
  leaveSessions rem 0 ((getAvailableSessions w).take i) ⟨[], 0, 0⟩ w

/-! ## Delete session -/

/-- Outcomes of the external calls of the `del_` handler. -/
structure DeleteRemote where
  unlink : Outcome
  saveJoined : Outcome
  saveInfo : Outcome
  deriving DecidableEq, Repr

/-- What the `del_` handler replies. -/
inductive DeleteReply
  | deleted (name : Str)
  | failed (msg : Str)
  deriving DecidableEq, Repr

/-- Lines 478-481: when `joinedChannels[name]` is truthy, `delete` the own
property (nothing to delete for an inherited member) and save. -/
def deleteLedgerEntry (r : DeleteRemote) (name : Str) (w : World) : Outcome × World :=
  match Dict.lookup name w.joinedChannels with
  | Lookup.own _ => (r.saveJoined, { w with joinedChannels := Dict.delete name w.joinedChannels })
  | Lookup.inherited => (r.saveJoined, w)
  | Lookup.undefined => (none, w)

/-- Lines 482-485: when `sessionsInfo[name]` is truthy, `delete` the own
property (nothing to delete for an inherited member) and save. -/
def deleteProfileEntry (r : DeleteRemote) (name : Str) (w : World) : Outcome × World :=
  match Dict.lookup name w.sessionsInfo with
  | Lookup.own _ => (r.saveInfo, { w with sessionsInfo := Dict.delete name w.sessionsInfo })
  | Lookup.inherited => (r.saveInfo, w)
  | Lookup.undefined => (none, w)

/-- The handler of `del_<name>` (lines 471-500). -/
def deleteSession (r : DeleteRemote) (name : Str) (w : World) : DeleteReply × World :=
  match Dict.get (name ++ sessionExt) w.files with
  | none => (DeleteReply.failed enoent, w)
  | some _ =>
    match r.unlink with
    | some e => (DeleteReply.failed e, w)
    | none =>
      let w1 := { w with files := Dict.delete (name ++ sessionExt) w.files }
      match deleteLedgerEntry r name w1 with
      | (some e, w2) => (DeleteReply.failed e, w2)
      | (none, w2) =>
        match deleteProfileEntry r name w2 with
        | (some e, w3) => (DeleteReply.failed e, w3)
        | (none, w3) => (DeleteReply.deleted name, w3)

/-! ## Operator actions and the ledger invariant -/

/-- The invariant of the Membership Record: within each session's record no two
entries are equal ignoring case (`lc` is `toLowerCase`). -/
def LedgerInv (lc : Str → Str) (L : Ledger) : Prop :=
  ∀ e ∈ L, e.2.Pairwise (fun a b => lc a ≠ lc b)

/-- The handlers that can touch the ledger, with the remote outcomes they meet. -/
inductive Action
  | joinRequest (link : Str)
  | forceJoin (rem : Nat → JoinRemote) (link : Str)
  | leaveAll (rem : Nat → LeaveRemote) (save : Outcome)
  | delete (r : DeleteRemote) (name : Str)

/-- The state after a handler has run. -/
def Action.run (lc : Str → Str) (delay : Nat) : Action → World → World
  | Action.joinRequest link, w => (handleChannelJoinRequest lc link w).2
  | Action.forceJoin rem link, w => (processJoinRequest lc rem delay link w).2
  | Action.leaveAll rem save, w => (confirmLeaveAll rem save w).2
  | Action.delete r name, w => (deleteSession r name w).2

/-- The states reachable from `w0`: by the handlers above, and by steps that
leave the ledger alone (such as a completed login, which writes a session
file and a profile). -/
inductive Reachable (lc : Str → Str) (delay : Nat) (w0 : World) : World → Prop
  | start : Reachable lc delay w0 w0
  | act (a : Action) (w : World) : Reachable lc delay w0 w → Reachable lc delay w0 (a.run lc delay w)
  | other (w w1 : World) : Reachable lc delay w0 w → w1.joinedChannels = w.joinedChannels →
      Reachable lc delay w0 w1

/-- An ASCII-only `toLowerCase`, used to evaluate the handlers on concrete
inputs; the theorems hold for every `lc`. -/
def asciiLower (s : Str) : Str := s.map Char.toLower

instance (lc : Str → Str) (L : Ledger) : Decidable (LedgerInv lc L) := by
  unfold LedgerInv
  infer_instance

/-! ## Concrete inputs -/

/-- Remote outcomes of a join in which every call returns. -/
def joinAllOk : JoinRemote := ⟨none, none, none, none, none, none⟩

/-- Remote outcomes of a join in which the session connects and both the
primary join call and the invite-hash fallback are rejected. -/
def joinBothRejected : JoinRemote :=
  ⟨none, none, some "CHANNEL_INVALID".toList, some "INVITE_HASH_INVALID".toList, none, none⟩

/-- A store with the two sessions `alice` and `bob`; `alice` has joined `@news`. -/
def demoWorld : World :=
  { files := [("alice.session".toList, "1Aa".toList), ("bob.session".toList, "1Bb".toList)]
    joinedChannels := [("alice".toList, ["@news".toList])]
    sessionsInfo := [("alice".toList,
      ⟨"+8801234567890".toList, "1".toList, "alice".toList, "Alice".toList, [], "t0".toList⟩)]
    trace := [] }

/-- A store in which `alice` has joined three targets. -/
def leaveDemoWorld : World :=
  { demoWorld with
    joinedChannels := [("alice".toList,
      ["@news".toList, "@sport".toList, "https://t.me/tech".toList])] }

/-- Remote outcomes of a leave-all in which every session connects and only the
target at index 1 can be left neither by the primary call nor by the fallback. -/
def leaveDemoRemote : Nat → LeaveRemote := fun _ =>
  { readFile := none
    connect := none
    target := fun li =>
      if li = 1 then ⟨some "CHANNEL_PRIVATE".toList, none, some "not found".toList, none⟩
      else ⟨none, none, none, none⟩
    disconnect := none }

/-- Remote outcomes of a delete in which every call returns. -/
def deleteAllOk : DeleteRemote := ⟨none, none, none⟩

/-- A store with three sessions and an empty ledger. -/
def threeSessions : World :=
  { files := [("A.session".toList, "1Aa".toList), ("B.session".toList, "1Bb".toList),
      ("C.session".toList, "1Cc".toList)]
    joinedChannels := []
    sessionsInfo := []
    trace := [] }

/-- Remote outcomes of a batch join in which only the second session (index 1)
fails, at `connect`. -/
def secondFailsToConnect : Nat → JoinRemote := fun i =>
  if i = 1 then { joinAllOk with connect := some "TIMEOUT".toList } else joinAllOk

/-! ## Pagination -/

/-- The constant `SESSIONS_PAGE_SIZE`. -/
def SESSIONS_PAGE_SIZE : Nat := 5

/-- The constant `JOINED_PAGE_SIZE`. -/
def JOINED_PAGE_SIZE : Nat := 10

/-- `Math.ceil(a / b)` for non-negative integers `a` and a positive `b`. -/
def ceilDiv (a b : Nat) : Nat := if a % b = 0 then a / b else a / b + 1

/-- `arr.slice(start, end)` for indices `0 ≤ start`, `0 ≤ end`. -/
def jsSlice {α : Type} (l : List α) (start stop : Nat) : List α := (l.take stop).drop start

/-- A button of an inline keyboard: a page button carries its label and its
callback data, written as the action text followed by the page number
(`sess_p_3`); the menu button has the callback data `back_to_menu`. -/
inductive Button
  | toPage (label action : Str) (target : Nat)
  | toMenu (label : Str)
  deriving DecidableEq, Repr

/-- Lines 191-197 and 220-226: the keyboard rows under a page.  `page - 1` is
only computed under the guard `page > 0`; `totalPages - 1` is computed in the
integers, as JavaScript does. -/
def navKeyboard (action : Str) (page totalPages : Nat) : List (List Button) :=
  let nav0 : List Button :=
    if page > 0 then [Button.toPage "Back".toList action (page - 1)] else []
  let nav : List Button :=
    if (page : Int) < (totalPages : Int) - 1 then
      nav0 ++ [Button.toPage "Next".toList action (page + 1)]
    else nav0
  let buttons : List (List Button) := if nav.length > 0 then [nav] else []
  buttons ++ [[Button.toMenu "Menu".toList]]

/-- What the text of a sessions page shows for one item. -/
structure SessionEntry where
  number : Nat
  name : Str
  info : Option Profile
  joinedCount : Nat
  deriving DecidableEq, Repr

/-- The value `buildSessionsPage` returns: the numbers of the header line, the
entries of the text, and the keyboard. -/
structure SessionsPage where
  total : Nat
  pageShown : Nat
  totalPages : Nat
  entries : List SessionEntry
  keyboard : List (List Button)
  deriving DecidableEq, Repr

/-- Lines 173-174: the variable `slice` of `buildSessionsPage`. -/
def sessionsSlice (sessions : List Str) (page : Nat) : List Str :=
  jsSlice sessions (page * SESSIONS_PAGE_SIZE) (page * SESSIONS_PAGE_SIZE + SESSIONS_PAGE_SIZE)

/-- The profile that prints as an inherited member does: the member has none
of the profile fields, so lines 183-186 print each of them as `undefined`. -/
def undefinedProfile : Profile :=
  ⟨"undefined".toList, "undefined".toList, "undefined".toList, "undefined".toList, [],
    "undefined".toList⟩

/-- Line 180: `info`, as the text shows it. -/
def shownInfo (name : Str) (w : World) : Option Profile :=
  match Dict.lookup name w.sessionsInfo with
  | Lookup.own p => some p
  | Lookup.inherited => some undefinedProfile
  | Lookup.undefined => none

/-- The property `length` of an inherited member: the number of parameters of
the function, nothing (counted as 0 by `|| 0`) for the prototype object. -/
def inheritedLength (name : Str) : Nat :=
  if name ∈ ["__defineGetter__".toList, "__defineSetter__".toList] then 2
  else if name ∈ ["constructor".toList, "hasOwnProperty".toList, "isPrototypeOf".toList,
      "propertyIsEnumerable".toList, "__lookupGetter__".toList, "__lookupSetter__".toList] then 1
  else 0

/-- Line 179: `joinedChannels[name]?.length || 0`. -/
def shownJoinedCount (name : Str) (w : World) : Nat :=
  match Dict.lookup name w.joinedChannels with
  | Lookup.own chs => chs.length
  | Lookup.inherited => inheritedLength name
  | Lookup.undefined => 0

/-- Lines 177-189: the loop over `slice` from index `i` on. -/
def sessionEntries (w : World) (start : Nat) : Nat → List Str → List SessionEntry
  | _, [] => []
  | i, file :: rest =>
    let name := replaceFirst sessionExt [] file
    ⟨start + i + 1, name, shownInfo name w, shownJoinedCount name w⟩
      :: sessionEntries w start (i + 1) rest

/-- `buildSessionsPage(sessions, page)`. -/
def buildSessionsPage (w : World) (sessions : List Str) (page : Nat) : SessionsPage :=
  let total := sessions.length
  let totalPages := ceilDiv total SESSIONS_PAGE_SIZE
  let start := page * SESSIONS_PAGE_SIZE
  { total := total
    pageShown := page + 1
    totalPages := totalPages
    entries := sessionEntries w start 0 (sessionsSlice sessions page)
    keyboard := navKeyboard "sess_p_".toList page totalPages }

/-- Lines 203-208: `allEntries`, one `(session, channel)` pair per tracked
target, in `Object.entries` order. -/
def allJoinedEntries : Ledger → List (Str × Str)
  | [] => []
  | (name, channels) :: rest => channels.map (fun ch => (name, ch)) ++ allJoinedEntries rest

/-- The value `buildJoinedPage` returns; `entries` are the lines of the text. -/
structure JoinedPage where
  total : Nat
  pageShown : Nat
  totalPages : Nat
  entries : List (Str × Str)
  keyboard : List (List Button)
  deriving DecidableEq, Repr

/-- `buildJoinedPage(page)`. -/
def buildJoinedPage (w : World) (page : Nat) : JoinedPage :=
  let allEntries := allJoinedEntries w.joinedChannels
  let total := allEntries.length
  let totalPages := ceilDiv total JOINED_PAGE_SIZE
  let start := page * JOINED_PAGE_SIZE
  { total := total
    pageShown := page + 1
    totalPages := totalPages
    entries := jsSlice allEntries start (start + JOINED_PAGE_SIZE)
    keyboard := navKeyboard "join_p_".toList page totalPages }

/-- The page targets of the page buttons of a keyboard. -/
def navTargets (keyboard : List (List Button)) : List Nat :=
  keyboard.flatten.filterMap (fun b =>
    match b with
    | Button.toPage _ _ t => some t
    | Button.toMenu _ => none)

/-- Twelve session files. -/
def twelveSessions : List Str :=
  (List.range 12).map (fun i => 'S' :: Char.ofNat (97 + i) :: sessionExt)

/-- Following the specification: `items` shown in zero-indexed pages of `size`
items, `totalPages` of them; `pageItems p` and `keyboard p` are what page `p`
shows.  The number of pages is the ceiling of `total / size`; page `p` holds the
items `size * p .. min (size * p + size) total - 1` in order; every page but the
last is full and the last holds the remainder; the pages in order make up the
whole list; the only page buttons are `Next` to `p + 1`, present exactly when
`p` is not the last page, and `Back` to `p - 1`, present exactly when `p > 0`;
so every target is a page index. -/
def PageLayout {α : Type} (items : List α) (size totalPages : Nat) (pageItems : Nat → List α)
    (keyboard : Nat → List (List Button)) (action : Str) : Prop :=
  0 < items.length →
    (size * (totalPages - 1) < items.length ∧ items.length ≤ size * totalPages) ∧
    (∀ p, p < totalPages →
      (pageItems p).length = min (size * p + size) items.length - size * p ∧
      (∀ k, k < (pageItems p).length → (pageItems p)[k]? = items[size * p + k]?) ∧
      (p + 1 < totalPages → (pageItems p).length = size) ∧
      (p + 1 = totalPages → (pageItems p).length = items.length - size * (totalPages - 1)) ∧
      (Button.toPage "Next".toList action (p + 1) ∈ (keyboard p).flatten ↔ p + 1 < totalPages) ∧
      (Button.toPage "Back".toList action (p - 1) ∈ (keyboard p).flatten ↔ 0 < p) ∧
      (∀ l a t, Button.toPage l a t ∈ (keyboard p).flatten →
        (l = "Next".toList ∧ a = action ∧ t = p + 1 ∧ p + 1 < totalPages) ∨
        (l = "Back".toList ∧ a = action ∧ t + 1 = p)) ∧
      (∀ t ∈ navTargets (keyboard p), t < totalPages)) ∧
    ((List.range totalPages).map pageItems).flatten = items

/-! ## Login completion -/

/-- JavaScript white space: what `\s` matches and `trim` removes. -/
def isJsSpace (c : Char) : Bool :=
  decide (c.toNat ∈ [9, 10, 11, 12, 13, 32, 160, 5760, 8192, 8193, 8194, 8195, 8196, 8197,
    8198, 8199, 8200, 8201, 8202, 8232, 8233, 8239, 8287, 12288, 65279])

/-- `s.trim()`. -/
def jsTrim (s : Str) : Str :=
  ((s.dropWhile isJsSpace).reverse.dropWhile isJsSpace).reverse

/-- The character class `[/\\?%*:|"<>]` of line 678. -/
def isUnsafeChar (c : Char) : Bool :=
  c == '/' || c == '\\' || c == '?' || c == '%' || c == '*' || c == ':' || c == '|' ||
    c == '"' || c == '<' || c == '>'

/-- `name.replace(/[/\\?%*:|"<>]/g, "-")`. -/
def sanitize (s : Str) : Str := s.map (fun c => if isUnsafeChar c then '-' else c)

/-- `phone.slice(-4)`: the last four characters, or all of them when there are
fewer. -/
def sliceLast4 (phone : Str) : Str := phone.drop (phone.length - 4)

/-- Lines 672-685: the session name derived from `rawName` (the trimmed display
name) and the flow's phone, against the files of the store. -/
def deriveSessionName (rawName phone : Str) (w : World) : Str :=
  if rawName = [] then
    "Account ".toList ++ Nat.toDigits 10 ((getAvailableSessions w).length + 1)
  else
    let sanitized := sanitize rawName
    if (Dict.get (sanitized ++ sessionExt) w.files).isSome then
      sanitized ++ " (".toList ++ sliceLast4 phone ++ ")".toList
    else sanitized

/-- The fields of `client.getMe()` the source reads; `none` is `undefined`. -/
structure UserInfo where
  id : Str
  username : Option Str
  firstName : Option Str
  lastName : Option Str
  deriving DecidableEq, Repr

/-- `x || d` for a string or `undefined`. -/
def strOr (x : Option Str) (d : Str) : Str :=
  match x with
  | some (c :: cs) => c :: cs
  | _ => d

/-- Lines 670-671: `rawName`. -/
def rawNameOf (u : UserInfo) : Str :=
  jsTrim (strOr u.firstName [] ++ " ".toList ++ strOr u.lastName [])

/-- A callback the client library invokes during `client.start`, each of which
suspends the flow until the operator answers. -/
inductive Prompt
  | code
  | password (hint : Option Str)
  deriving DecidableEq, Repr

/-- Outcomes of the external calls of one `initiateSessionCreation` run:
`prompts` are the callbacks `client.start` makes, in order, before it ends as
`start` says; `blob` is `client.session.save()`; `notify` is the awaited
`sendMessage` of line 713; `now` is the creation timestamp. -/
structure AuthRemote where
  prompts : List Prompt
  start : Outcome
  getMe : Except Str UserInfo
  blob : Str
  writeFile : Outcome
  saveInfo : Outcome
  disconnect : Outcome
  notify : Outcome
  now : Str

/-- The registry `pendingFlows`: operator id to flow. -/
abbrev FlowMap := List (Nat × Flow)

/-- `pendingFlows.get(userId)`. -/
def FlowMap.get (userId : Nat) : FlowMap → Option Flow
  | [] => none
  | (k, f) :: rest => if k = userId then some f else FlowMap.get userId rest

/-- `pendingFlows.set(userId, flow)`. -/
def FlowMap.set (userId : Nat) (flow : Flow) : FlowMap → FlowMap
  | [] => [(userId, flow)]
  | (k, f) :: rest =>
    if k = userId then (k, flow) :: rest else (k, f) :: FlowMap.set userId flow rest

/-- `pendingFlows.delete(userId)`. -/
def FlowMap.delete (userId : Nat) : FlowMap → FlowMap
  | [] => []
  | (k, f) :: rest =>
    if k = userId then FlowMap.delete userId rest else (k, f) :: FlowMap.delete userId rest

/-- The state of the login flow: the shared state, the flow registry, and the
paths handed to `fs.writeFile` so far (session files by their name, the profile
document as `sessions_info.json`). -/
structure Bot where
  world : World
  pendingFlows : FlowMap
  written : List Str

/-- The name of the profile document. -/
def sessionsInfoFile : Str := "sessions_info.json".toList

/-- The callbacks `phoneCode` and `password` (lines 633-660): each sets the
step of the flow and stores the flow again. -/
def runPrompts (userId : Nat) : List Prompt → Flow → FlowMap → Flow × FlowMap
  | [], flow, m => (flow, m)
  | Prompt.code :: rest, flow, m =>
    let flow1 := { flow with step := FlowStep.code }
    runPrompts userId rest flow1 (FlowMap.set userId flow1 m)
  | Prompt.password _ :: rest, flow, m =>
    let flow1 := { flow with step := FlowStep.password }
    runPrompts userId rest flow1 (FlowMap.set userId flow1 m)

/-- Lines 687-731 of `initiateSessionCreation`, after the identity is known:
the error thrown, if any, and the state at that point. -/
def completeLogin (r : AuthRemote) (userId : Nat) (flow : Flow) (phone : Str) (u : UserInfo)
    (b : Bot) : Outcome × Bot :=
  let sessionName := deriveSessionName (rawNameOf u) phone b.world
  let file := sessionName ++ sessionExt
  let b1 := { b with written := b.written ++ [file] }
  match r.writeFile with
  | some e => (some e, b1)
  | none =>
    let profile : Profile :=
      ⟨phone, u.id, strOr u.username "N/A".toList, strOr u.firstName "N/A".toList,
        strOr u.lastName [], r.now⟩
    let b2 : Bot :=
      { b1 with
        world := { b1.world with
          files := Dict.set file r.blob b1.world.files
          sessionsInfo := Dict.set sessionName profile b1.world.sessionsInfo }
        written := b1.written ++ [sessionsInfoFile] }
    match r.saveInfo with
    | some e => (some e, b2)
    | none =>
      let b3 := { b2 with world := b2.world.log sessionName Call.disconnect r.disconnect }
      match r.disconnect with
      | some e => (some e, b3)
      | none =>
        let b4 := { b3 with pendingFlows := FlowMap.delete userId b3.pendingFlows }
        match r.notify with
        | some e => (some e, b4)
        | none =>
          (none, { b4 with
            pendingFlows := FlowMap.set userId ⟨FlowStep.phone, flow.chatId, none⟩
              b4.pendingFlows })

/-- `initiateSessionCreation(userId, flow)`; `phone` is `flow.phone`, which
line 580 sets before the only call.  Returns the error thrown, if any, and the
state at that point. -/
def initiateSessionCreation (r : AuthRemote) (userId : Nat) (flow : Flow) (phone : Str)
    (b : Bot) : Outcome × Bot :=
  let started := runPrompts userId r.prompts flow b.pendingFlows
  let b1 := { b with pendingFlows := started.2 }
  match r.start with
  | some e => (some e, b1)
  | none =>
    match r.getMe with
    | Except.error e => (some e, b1)
    | Except.ok u => completeLogin r userId started.1 phone u b1

/-- Lines 590-597: the call of `initiateSessionCreation` with its `catch`, which
deletes the flow of the operator. -/
def runSessionCreation (r : AuthRemote) (userId : Nat) (flow : Flow) (phone : Str) (b : Bot) :
    Bot :=
  match initiateSessionCreation r userId flow phone b with
  | (none, b1) => b1
  | (some _, b1) => { b1 with pendingFlows := FlowMap.delete userId b1.pendingFlows }

/-- The branch `flow.step === "phone"` of `handleFlow` on the whole state
(lines 567-600). -/
def handleFlowPhoneStep (r : AuthRemote) (userId : Nat) (text : Str) (flow : Flow) (b : Bot) :
    PhoneReply × Bot :=
  match handleFlowPhone text flow with
  | (PhoneReply.invalidFormat, _) => (PhoneReply.invalidFormat, b)
  | (PhoneReply.connecting phone, flow1) =>
    (PhoneReply.connecting phone,
      runSessionCreation r userId flow1 phone
        { b with pendingFlows := FlowMap.set userId flow1 b.pendingFlows })

/-! ## Free text -/

/-- `text.replace(/[\s\-().]/g, "")`. -/
def stripPhonePunct (text : Str) : Str :=
  text.filter (fun c => !(isJsSpace c || c == '-' || c == '(' || c == ')' || c == '.'))

/-- `/^\+?\d{10,15}$/.test(s)`.  The optional `+` is taken when it is there:
without it the digits would have to start at the `+`. -/
def testOptPlusDigits (s : Str) : Bool :=
  match s with
  | '+' :: ds =>
    match matchDigits 10 15 ds with
    | some [] => true
    | _ => false
  | ds =>
    match matchDigits 10 15 ds with
    | some [] => true
    | _ => false

/-- Line 537: `looksLikePhone`. -/
def looksLikePhone (text : Str) : Bool := testOptPlusDigits (stripPhonePunct text)

/-- Lines 522-525: `text.split(/\s+|\n+/)` without the empty pieces: the maximal
runs of characters that are not white space.  `cur` is the current run,
reversed. -/
def textTokens : Str → Str → List Str
  | [], cur => if cur = [] then [] else [cur.reverse]
  | c :: cs, cur =>
    if isJsSpace c then
      (if cur = [] then textTokens cs [] else cur.reverse :: textTokens cs [])
    else textTokens cs (c :: cur)

/-- `[...new Set(xs)]`: the distinct elements in order of first occurrence. -/
def uniqueFirst : List Str → List Str
  | [] => []
  | x :: xs => x :: (uniqueFirst xs).filter (fun y => decide (y ≠ x))

/-- Lines 526-528: `links`. -/
def textLinks (text : Str) : List Str :=
  uniqueFirst ((textTokens text []).filter
    (fun l => includes l "t.me/".toList || startsWith l "@".toList))

/-- What the text handler does with a text when no flow is pending. -/
inductive TextRoute
  | joinRequests (links : List Str)
  | phoneFlow
  | help
  deriving DecidableEq, Repr

/-- Lines 522-550 of the text handler. -/
def routeText (text : Str) : TextRoute :=
  if (textLinks text).length > 0 then TextRoute.joinRequests (textLinks text)
  else if looksLikePhone text then TextRoute.phoneFlow
  else TextRoute.help

/-- Lines 542-544: the flow the text handler creates for a detected phone
number, and the phone step run on the same text. -/
def autoPhoneFlow (text : Str) (chatId : Nat) : PhoneReply × Flow :=
  handleFlowPhone text ⟨FlowStep.phone, chatId, none⟩

/-- Following the specification: the ten filesystem-unsafe characters
`/ \ ? % * : | " < >`. -/
def unsafeChars : List Char := ['/', '\\', '?', '%', '*', ':', '|', '"', '<', '>']

/-- Remote outcomes of a login in which the remote rejects the code the
operator sent. -/
def loginCodeRejected : AuthRemote :=
  { prompts := [Prompt.code]
    start := some "PHONE_CODE_INVALID".toList
    getMe := Except.error "not authorised".toList
    blob := "1New".toList
    writeFile := none
    saveInfo := none
    disconnect := none
    notify := none
    now := "t1".toList }

/-- Remote outcomes of a login of the account `John` in which every call
returns. -/
def loginJohn : AuthRemote :=
  { prompts := [Prompt.code]
    start := none
    getMe := Except.ok ⟨"42".toList, none, some "John".toList, none⟩
    blob := "1New".toList
    writeFile := none
    saveInfo := none
    disconnect := none
    notify := none
    now := "t1".toList }

/-- Remote outcomes of a login of an account without a name in which every call
returns. -/
def loginNameless : AuthRemote :=
  { loginJohn with getMe := Except.ok ⟨"43".toList, none, none, none⟩ }

/-- A state with the sessions `John` and `John (7890)` in the store and a flow
of operator 1 at its phone step. -/
def johnBot : Bot :=
  { world :=
      { files := [("John.session".toList, "1Old".toList),
          ("John (7890).session".toList, "1Other".toList)]
        joinedChannels := []
        sessionsInfo := []
        trace := [] }
    pendingFlows := [(1, ⟨FlowStep.phone, 7, none⟩)]
    written := [] }

/-- A state whose store holds only the session `Account 2`, as after
`Account 1` was deleted. -/
def accountBot : Bot :=
  { johnBot with
    world := { johnBot.world with files := [("Account 2.session".toList, "1Other".toList)] } }

/-- A store in which `alice` has joined one target. -/
def oneTargetWorld : World :=
  { demoWorld with joinedChannels := [("alice".toList, ["@news".toList])] }

/-- Remote outcomes of a leave-all in which every call returns except
`disconnect`, which throws. -/
def disconnectThrows : Nat → LeaveRemote := fun _ =>
  { readFile := none
    connect := none
    target := fun _ => ⟨none, none, none, none⟩
    disconnect := some "TIMEOUT".toList }

/-- A store whose first session file gives the name `constructor`, a member
every object inherits; `dave` has joined two targets. -/
def inheritedWorld : World :=
  { files := [("constructor.session".toList, "1Cc".toList), ("dave.session".toList, "1Dd".toList)]
    joinedChannels := [("dave".toList, ["@a".toList, "@b".toList])]
    sessionsInfo := []
    trace := [] }

/-- Remote outcomes of a leave-all in which every call returns. -/
def leaveAllOk : Nat → LeaveRemote := fun _ =>
  { readFile := none
    connect := none
    target := fun _ => ⟨none, none, none, none⟩
    disconnect := none }

/-! ## Phone step -/

theorem matchDigits_eq_some_nil (hi lo : Nat) (ds : Str) :
    matchDigits lo hi ds = some [] ↔
      (∀ c ∈ ds, c.isDigit = true) ∧ lo ≤ ds.length ∧ ds.length ≤ hi := by
  induction hi generalizing lo ds with
  | zero =>
    cases ds with
    | nil => simp [matchDigits]
    | cons c cs =>
      simp only [matchDigits, List.length_cons]
      by_cases h : lo = 0 <;> simp [h]
  | succ hi ih =>
    cases ds with
    | nil => simp [matchDigits]
    | cons c cs =>
      simp only [matchDigits, List.length_cons, List.mem_cons, forall_eq_or_imp]
      by_cases hc : c.isDigit = true
      · simp only [hc, if_true, ih, true_and]
        constructor
        · rintro ⟨h1, h2, h3⟩
          exact ⟨h1, by omega, by omega⟩
        · rintro ⟨h1, h2, h3⟩
          exact ⟨h1, by omega, by omega⟩
      · by_cases h : lo = 0 <;> simp [hc, h]

theorem testPlusDigits_iff (s : Str) : testPlusDigits s = true ↔ IsPlusDigits s := by
  unfold IsPlusDigits
  cases s with
  | nil => simp [testPlusDigits]
  | cons c ds =>
    by_cases hc : c = '+'
    · subst hc
      have key := matchDigits_eq_some_nil 15 10 ds
      constructor
      · intro h
        refine ⟨ds, rfl, ?_⟩
        apply key.1
        simp only [testPlusDigits] at h
        split at h
        · assumption
        · exact absurd h (by simp)
      · rintro ⟨ds', h1, h2⟩
        obtain rfl : ds = ds' := by simpa using h1
        simp [testPlusDigits, key.2 h2]
    · constructor
      · intro h
        unfold testPlusDigits at h
        split at h
        · rename_i heq
          exact absurd (List.cons.inj heq).1 hc
        · exact absurd h (by simp)
      · rintro ⟨ds', h1, -⟩
        exact absurd (List.cons.inj h1).1 hc

theorem normalizePhone_eq_spec (text : Str) : normalizePhone text = specNormalizePhone text := by
  unfold normalizePhone specNormalizePhone stripNonPhone startsWith
  have hf : (fun c : Char => c.isDigit || c == '+') = fun c => decide (c.isDigit = true ∨ c = '+') := by
    funext c
    rw [Bool.eq_iff_iff]
    simp
  rw [hf]
  generalize text.filter (fun c => decide (c.isDigit = true ∨ c = '+')) = kept
  cases kept with
  | nil => simp
  | cons c cs =>
    by_cases hc : c = '+'
    · subst hc
      simp
    · simp [hc]
      exact fun h => hc h.symm

/-- C1: the phone step accepts a text exactly when the text, stripped of every
character that is neither a digit nor `+` and prefixed with `+` when it does
not start with one, is `+` followed by 10 to 15 digits; on acceptance that
string is stored as the flow's phone, on rejection the flow is untouched and
its step is still `phone`. -/
theorem handleFlowPhone_accepts_iff (text : Str) (flow : Flow)
    (hstep : flow.step = FlowStep.phone) :
    ((handleFlowPhone text flow).1 ≠ PhoneReply.invalidFormat ↔
        IsPlusDigits (specNormalizePhone text)) ∧
    (IsPlusDigits (specNormalizePhone text) →
        handleFlowPhone text flow =
          (PhoneReply.connecting (specNormalizePhone text),
            { flow with phone := some (specNormalizePhone text), step := FlowStep.connecting })) ∧
    (¬ IsPlusDigits (specNormalizePhone text) →
        handleFlowPhone text flow = (PhoneReply.invalidFormat, flow) ∧
        (handleFlowPhone text flow).2.step = FlowStep.phone ∧
        (handleFlowPhone text flow).2.phone = flow.phone) := by
  rw [← normalizePhone_eq_spec, ← testPlusDigits_iff]
  unfold handleFlowPhone
  by_cases h : testPlusDigits (normalizePhone text) = true
  · simp [h]
  · simp [h, hstep]

theorem handleFlowPhone_accepts_iff_witness :
    (handleFlowPhone "+880 (123) 456-7890".toList ⟨FlowStep.phone, 7, none⟩).1
        ≠ PhoneReply.invalidFormat ↔
      IsPlusDigits (specNormalizePhone "+880 (123) 456-7890".toList) :=
  (handleFlowPhone_accepts_iff "+880 (123) 456-7890".toList ⟨FlowStep.phone, 7, none⟩ rfl).1

/-! ## Target normalisation -/

theorem includes_iff (s p : Str) : includes s p = true ↔ p <:+: s := by
  induction s with
  | nil => simp [includes]
  | cons c cs ih =>
    simp only [includes, Bool.or_eq_true, ih, List.isPrefixOf_iff_prefix]
    exact List.infix_cons_iff.symm

theorem includes_eq_false_iff (s p : Str) : includes s p = false ↔ ¬ p <:+: s := by
  rw [← includes_iff]
  simp

theorem splitGo_no_occurrence (sep : Str) (s cur : Str) (h : ¬ sep <:+: s) :
    splitGo sep 0 cur s = [cur.reverse ++ s] := by
  induction s generalizing cur with
  | nil => simp [splitGo]
  | cons c cs ih =>
    rw [List.infix_cons_iff, not_or] at h
    have hp : sep.isPrefixOf (c :: cs) = false := by
      rw [← Bool.not_eq_true, List.isPrefixOf_iff_prefix]
      exact h.1
    simp [splitGo, hp, ih _ h.2]

theorem splitGo_head (sep : Str) (s cur : Str) :
    ∃ tail rest, splitGo sep 0 cur s = (cur.reverse ++ tail) :: rest := by
  induction s generalizing cur with
  | nil => exact ⟨[], [], by simp [splitGo]⟩
  | cons c cs ih =>
    by_cases hp : sep.isPrefixOf (c :: cs) = true
    · exact ⟨[], splitGo sep (sep.length - 1) [] cs, by simp [splitGo, hp]⟩
    · obtain ⟨tail, rest, h⟩ := ih (c :: cur)
      exact ⟨c :: tail, rest, by simp [splitGo, hp, h]⟩

theorem prefix_of_prefix_append_cons (sep x rest : Str) (c : Char) (hc : c ∉ sep)
    (h : sep <+: x ++ c :: rest) : sep <+: x := by
  induction sep generalizing x with
  | nil => exact List.nil_prefix
  | cons a sep ih =>
    cases x with
    | nil =>
      rw [List.nil_append, List.cons_prefix_cons] at h
      exact absurd (h.1 ▸ List.mem_cons_self a sep) hc
    | cons b x =>
      rw [List.cons_append, List.cons_prefix_cons] at h
      rw [List.cons_prefix_cons]
      exact ⟨h.1, ih x (fun hm => hc (List.mem_cons_of_mem _ hm)) h.2⟩

theorem splitGo_head_through (sep x params cur : Str) (c : Char) (hc : c ∉ sep)
    (hx : ¬ sep <:+: x) :
    ∃ tail rest, splitGo sep 0 cur (x ++ c :: params) = (cur.reverse ++ x ++ c :: tail) :: rest := by
  induction x generalizing cur with
  | nil =>
    have hp : sep.isPrefixOf (c :: params) = false := by
      rw [← Bool.not_eq_true, List.isPrefixOf_iff_prefix]
      intro h
      have := prefix_of_prefix_append_cons sep [] params c hc h
      exact hx (List.IsPrefix.isInfix this)
    obtain ⟨tail, rest, h⟩ := splitGo_head sep params (c :: cur)
    exact ⟨tail, rest, by simp [splitGo, hp, h]⟩
  | cons b x ih =>
    rw [List.infix_cons_iff, not_or] at hx
    have hp : sep.isPrefixOf (b :: x ++ c :: params) = false := by
      rw [← Bool.not_eq_true, List.isPrefixOf_iff_prefix]
      intro h
      exact hx.1 (prefix_of_prefix_append_cons sep (b :: x) params c hc h)
    obtain ⟨tail, rest, h⟩ := ih (b :: cur) hx.2
    refine ⟨tail, rest, ?_⟩
    rw [List.cons_append, splitGo]
    simp only [List.cons_append] at hp
    simp [hp, h]

theorem not_infix_singleton (x : Str) (c : Char) (h : c ∉ x) : ¬ [c] <:+: x := by
  intro hi
  exact h (hi.subset (List.mem_singleton_self c))

theorem splitGo_singleton_head (s tail cur : Str) (c : Char) (h : c ∉ s) :
    ∃ rest, splitGo [c] 0 cur (s ++ c :: tail) = (cur.reverse ++ s) :: rest := by
  induction s generalizing cur with
  | nil => exact ⟨splitGo [c] 0 [] tail, by simp [splitGo, List.isPrefixOf]⟩
  | cons b s ih =>
    rw [List.mem_cons, not_or] at h
    obtain ⟨rest, hr⟩ := ih (b :: cur) h.2
    refine ⟨rest, ?_⟩
    have hb : (c == b) = false := by simpa using h.1
    simp [splitGo, List.isPrefixOf, hb, hr]

theorem split_singleton_head (s tail : Str) (c : Char) (h : c ∉ s) :
    (split (s ++ c :: tail) [c]).getD 0 [] = s := by
  obtain ⟨rest, hr⟩ := splitGo_singleton_head s tail [] c h
  simp [split, hr]

theorem split_no_occurrence (s sep : Str) (hsep : sep ≠ []) (h : ¬ sep <:+: s) :
    split s sep = [s] := by
  simp [split, hsep, splitGo_no_occurrence sep s [] h]

theorem one_le_length_splitGo (sep : Str) (k : Nat) (u v : Str) :
    1 ≤ (splitGo sep k u v).length := by
  induction v generalizing k u with
  | nil => cases k <;> simp [splitGo]
  | cons d v ihv =>
    cases k with
    | zero =>
      by_cases hq : sep.isPrefixOf (d :: v) = true
      · simp [splitGo, hq]
      · simp only [splitGo, hq]
        exact ihv 0 _
    | succ k => simpa [splitGo] using ihv k u

/-- Index 1 of `link.split("t.me/")` exists under the guard `includes`. -/
theorem two_le_length_split (s sep cur : Str) (hsep : sep ≠ []) (h : sep <:+: s) :
    2 ≤ (splitGo sep 0 cur s).length := by
  induction s generalizing cur with
  | nil => exact absurd (by simpa using h) hsep
  | cons c cs ih =>
    by_cases hp : sep.isPrefixOf (c :: cs) = true
    · have := one_le_length_splitGo sep (sep.length - 1) [] cs
      simp only [splitGo, hp, if_true, List.length_cons]
      omega
    · rw [List.infix_cons_iff] at h
      have h2 : sep <:+: cs := by
        rcases h with h | h
        · exact absurd (List.isPrefixOf_iff_prefix.2 h) hp
        · exact h
      simpa [splitGo, hp] using ih (c :: cur) h2

theorem joinUsername_https (x : Str) (h1 : '?' ∉ x) (h2 : '/' ∉ x)
    (h4 : ¬ "t.me/".toList <:+: x) :
    joinUsername ("https://t.me/".toList ++ x) = x := by
  have hinc : includes ("https://t.me/".toList ++ x) "t.me/".toList = true := by
    rw [includes_iff]
    exact ⟨"https://".toList, x, rfl⟩
  have hsplit : split ("https://t.me/".toList ++ x) "t.me/".toList
      = "https://".toList :: splitGo "t.me/".toList 0 [] x := by
    simp [split, splitGo, List.isPrefixOf]
  rw [joinUsername, if_pos hinc, hsplit, splitGo_no_occurrence _ _ _ h4]
  simp only [List.getD_cons_succ, List.getD_cons_zero, List.reverse_nil, List.nil_append]
  rw [split_no_occurrence x "?".toList (by decide) (not_infix_singleton x '?' h1)]
  simp only [List.getD_cons_zero]
  rw [split_no_occurrence x "/".toList (by decide) (not_infix_singleton x '/' h2)]
  rfl

theorem joinUsername_params (x params : Str) (h1 : '?' ∉ x) (h2 : '/' ∉ x)
    (h4 : ¬ "t.me/".toList <:+: x) :
    joinUsername ("t.me/".toList ++ x ++ '?' :: params) = x := by
  have hinc : includes ("t.me/".toList ++ x ++ '?' :: params) "t.me/".toList = true := by
    rw [includes_iff]
    exact ⟨[], x ++ '?' :: params, by simp⟩
  obtain ⟨tail, rest, ht⟩ :=
    splitGo_head_through "t.me/".toList x params [] '?' (by decide) h4
  have hsplit : split ("t.me/".toList ++ x ++ '?' :: params) "t.me/".toList
      = [] :: splitGo "t.me/".toList 0 [] (x ++ '?' :: params) := by
    simp [split, splitGo, List.isPrefixOf]
  rw [joinUsername, if_pos hinc, hsplit, ht]
  simp only [List.getD_cons_succ, List.getD_cons_zero, List.reverse_nil, List.nil_append]
  rw [show "?".toList = ['?'] from rfl, split_singleton_head x tail '?' h1]
  rw [split_no_occurrence x "/".toList (by decide) (not_infix_singleton x '/' h2)]
  rfl

theorem joinUsername_at (x : Str) (h4 : ¬ "t.me/".toList <:+: x) :
    joinUsername ('@' :: x) = x := by
  have hinc : includes ('@' :: x) "t.me/".toList = false := by
    rw [includes_eq_false_iff, List.infix_cons_iff, not_or]
    exact ⟨by simp [List.cons_prefix_cons], h4⟩
  unfold joinUsername
  rw [hinc]
  simp [startsWith, List.isPrefixOf]

theorem joinUsername_bare (x : Str) (h3 : '@' ∉ x) (h4 : ¬ "t.me/".toList <:+: x) :
    joinUsername x = x := by
  have hinc : includes x "t.me/".toList = false := (includes_eq_false_iff _ _).2 h4
  have hst : startsWith x "@".toList = false := by
    cases x with
    | nil => rfl
    | cons c cs =>
      have : ('@' == c) = false := by
        rw [List.mem_cons, not_or] at h3
        simpa using h3.1
      simp [startsWith, List.isPrefixOf, this]
  unfold joinUsername
  rw [hinc, hst]
  simp

/-- C2: for a handle `x` without `?`, `/`, `@` and without an occurrence of
`t.me/`, the normalisation used for the protocol join call maps
`https://t.me/x`, `t.me/x?params`, `@x` and `x` all to `x`. -/
theorem joinUsername_forms (x params : Str) (h1 : '?' ∉ x) (h2 : '/' ∉ x) (h3 : '@' ∉ x)
    (h4 : ¬ "t.me/".toList <:+: x) :
    joinUsername ("https://t.me/".toList ++ x) = x ∧
    joinUsername ("t.me/".toList ++ x ++ "?".toList ++ params) = x ∧
    joinUsername ("@".toList ++ x) = x ∧
    joinUsername x = x := by
  refine ⟨joinUsername_https x h1 h2 h4, ?_, joinUsername_at x h4, joinUsername_bare x h3 h4⟩
  have := joinUsername_params x params h1 h2 h4
  simpa using this

theorem joinUsername_forms_witness :
    joinUsername "https://t.me/durov".toList = "durov".toList ∧
    joinUsername "t.me/durov?start=1".toList = "durov".toList ∧
    joinUsername "@durov".toList = "durov".toList ∧
    joinUsername "durov".toList = "durov".toList :=
  joinUsername_forms "durov".toList "start=1".toList (by decide) (by decide) (by decide)
    (by decide)

/-! ## Batch join -/

theorem joinLoop_eq (join : JoinFn) (delay : Nat) (link : Str) (sessions : List Str) (i : Nat)
    (results : List Str) (sc : Nat) (w : World) :
    (joinLoop join delay link i sessions results sc w).1 =
      (results ++ (joinAttempts join delay link i sessions w).map (fun a => resultLine a.1 a.2),
        sc + (joinAttempts join delay link i sessions w).countP (fun a => retSuccess a.2)) := by
  induction sessions generalizing i results sc w with
  | nil => simp [joinLoop, joinAttempts]
  | cons file rest ih =>
    simp only [joinLoop, joinAttempts, ih, List.map_cons, List.countP_cons, List.append_assoc,
      List.singleton_append]
    by_cases h : retSuccess
        (join i (sessionNameOf file) link
          (if i > 0 then w.log (sessionNameOf file) (Call.sleep delay) none else w)).1 = true
    · simp [h]
      omega
    · simp [h]

theorem joinAttempts_names (join : JoinFn) (delay : Nat) (link : Str) (sessions : List Str)
    (i : Nat) (w : World) :
    (joinAttempts join delay link i sessions w).map Prod.fst = sessions.map sessionNameOf := by
  induction sessions generalizing i w with
  | nil => simp [joinAttempts]
  | cons file rest ih => simp [joinAttempts, ih]

theorem resultLine_startsWith (name : Str) (ret : Except Str JoinResult) :
    startsWith (resultLine name ret) "+ ".toList = retSuccess ret := by
  rcases ret with msg | ⟨_ | _, err⟩ <;>
    simp [resultLine, retSuccess, startsWith, List.isPrefixOf]

/-- C3: whatever each call of the join function does (returns success, returns
a failure, throws), `processJoinRequest` calls it for every session in input
order, pushes one result line per session, the i-th built from the i-th session
and starting with `+ ` exactly when that call returned success, counts the
successes and reports the length of the session list as total. -/
theorem processJoinRequestOn_report (join : JoinFn) (delay : Nat) (sessions : List Str)
    (link : Str) (w : World) :
    (joinAttempts join delay link 0 sessions w).map Prod.fst = sessions.map sessionNameOf ∧
    (processJoinRequestOn join delay sessions link w).1.results =
      (joinAttempts join delay link 0 sessions w).map (fun a => resultLine a.1 a.2) ∧
    (processJoinRequestOn join delay sessions link w).1.results.length = sessions.length ∧
    (∀ a ∈ joinAttempts join delay link 0 sessions w,
      startsWith (resultLine a.1 a.2) "+ ".toList = retSuccess a.2) ∧
    (processJoinRequestOn join delay sessions link w).1.successCount =
      (joinAttempts join delay link 0 sessions w).countP (fun a => retSuccess a.2) ∧
    (processJoinRequestOn join delay sessions link w).1.total = sessions.length := by
  have hl := joinLoop_eq join delay link sessions 0 [] 0 w
  have hn := joinAttempts_names join delay link sessions 0 w
  have hlen : (joinAttempts join delay link 0 sessions w).length = sessions.length := by
    simpa using congrArg List.length hn
  refine ⟨hn, ?_, ?_, fun a _ => resultLine_startsWith a.1 a.2, ?_, rfl⟩
  · simp [processJoinRequestOn, hl]
  · simp [processJoinRequestOn, hl, hlen]
  · simp [processJoinRequestOn, hl]

theorem processJoinRequest_three_sessions :
    (processJoinRequest asciiLower secondFailsToConnect 3000 "@news".toList threeSessions).1 =
      ⟨["+ A".toList, "- B: TIMEOUT".toList, "+ C".toList], 2, 3⟩ ∧
    (processJoinRequest asciiLower secondFailsToConnect 3000 "@news".toList
        threeSessions).2.joinedChannels =
      [("A".toList, ["@news".toList]), ("C".toList, ["@news".toList])] := by
  decide

/-! ## Dictionaries -/

theorem Dict.mem_of_get {α : Type} (name : Str) (d : Dict α) (v : α)
    (h : Dict.get name d = some v) : (name, v) ∈ d := by
  induction d with
  | nil => simp [Dict.get] at h
  | cons e rest ih =>
    obtain ⟨k, u⟩ := e
    by_cases hk : k = name
    · subst hk
      simp only [Dict.get, if_true, Option.some.injEq] at h
      subst h
      exact List.mem_cons_self _ _
    · simp only [Dict.get, hk, if_false] at h
      exact List.mem_cons_of_mem _ (ih h)

theorem Dict.mem_set {α : Type} (name : Str) (v : α) (d : Dict α) (e : Str × α)
    (h : e ∈ Dict.set name v d) : e ∈ d ∨ e = (name, v) := by
  induction d with
  | nil =>
    right
    simpa [Dict.set] using h
  | cons e0 rest ih =>
    obtain ⟨k, u⟩ := e0
    by_cases hk : k = name
    · subst hk
      simp only [Dict.set, if_true, List.mem_cons] at h
      rcases h with h | h
      · exact Or.inr h
      · exact Or.inl (List.mem_cons_of_mem _ h)
    · simp only [Dict.set, hk, if_false, List.mem_cons] at h
      rcases h with h | h
      · exact Or.inl (h ▸ List.mem_cons_self _ _)
      · rcases ih h with h1 | h1
        · exact Or.inl (List.mem_cons_of_mem _ h1)
        · exact Or.inr h1

theorem Dict.get_set_self {α : Type} (name : Str) (v : α) (d : Dict α) :
    Dict.get name (Dict.set name v d) = some v := by
  induction d with
  | nil => simp [Dict.set, Dict.get]
  | cons e rest ih =>
    obtain ⟨k, u⟩ := e
    by_cases hk : k = name
    · simp [Dict.set, Dict.get, hk]
    · simp [Dict.set, Dict.get, hk, ih]

theorem Dict.get_set_other {α : Type} (name other : Str) (v : α) (d : Dict α)
    (h : other ≠ name) : Dict.get other (Dict.set name v d) = Dict.get other d := by
  induction d with
  | nil => simp [Dict.set, Dict.get, Ne.symm h]
  | cons e rest ih =>
    obtain ⟨k, u⟩ := e
    by_cases hk : k = name
    · subst hk
      simp [Dict.set, Dict.get, Ne.symm h]
    · by_cases hk2 : k = other
      · subst hk2
        simp [Dict.set, Dict.get, hk]
      · simp [Dict.set, Dict.get, hk, hk2, ih]

theorem Dict.mem_delete {α : Type} (name : Str) (d : Dict α) (e : Str × α)
    (h : e ∈ Dict.delete name d) : e ∈ d ∧ e.1 ≠ name := by
  induction d with
  | nil => simp [Dict.delete] at h
  | cons e0 rest ih =>
    obtain ⟨k, u⟩ := e0
    by_cases hk : k = name
    · simp only [Dict.delete, hk, if_true] at h
      exact ⟨List.mem_cons_of_mem _ (ih h).1, (ih h).2⟩
    · simp only [Dict.delete, hk, if_false, List.mem_cons] at h
      rcases h with h | h
      · subst h
        exact ⟨List.mem_cons_self _ _, hk⟩
      · exact ⟨List.mem_cons_of_mem _ (ih h).1, (ih h).2⟩

theorem Dict.get_delete_self {α : Type} (name : Str) (d : Dict α) :
    Dict.get name (Dict.delete name d) = none := by
  induction d with
  | nil => rfl
  | cons e rest ih =>
    obtain ⟨k, u⟩ := e
    by_cases hk : k = name
    · simp [Dict.delete, hk, ih]
    · simp [Dict.delete, hk, Dict.get, ih]

theorem Dict.get_delete_other {α : Type} (name other : Str) (d : Dict α) (h : other ≠ name) :
    Dict.get other (Dict.delete name d) = Dict.get other d := by
  induction d with
  | nil => rfl
  | cons e rest ih =>
    obtain ⟨k, u⟩ := e
    by_cases hk : k = name
    · subst hk
      simp [Dict.delete, Dict.get, Ne.symm h, ih]
    · by_cases hk2 : k = other
      · subst hk2
        simp [Dict.delete, hk, Dict.get]
      · simp [Dict.delete, hk, Dict.get, hk2, ih]

/-! ## The ledger invariant -/

theorem LedgerInv.set (lc : Str → Str) (L : Ledger) (name : Str) (v : List Str)
    (hL : LedgerInv lc L) (hv : v.Pairwise (fun a b => lc a ≠ lc b)) :
    LedgerInv lc (Dict.set name v L) := by
  intro e he
  rcases Dict.mem_set name v L e he with h | h
  · exact hL e h
  · subst h
    exact hv

theorem LedgerInv.delete (lc : Str → Str) (L : Ledger) (name : Str) (hL : LedgerInv lc L) :
    LedgerInv lc (Dict.delete name L) := by
  intro e he
  exact hL e (Dict.mem_delete name L e he).1

theorem LedgerInv.get (lc : Str → Str) (L : Ledger) (name : Str) (chs : List Str)
    (hL : LedgerInv lc L) (h : Dict.get name L = some chs) :
    chs.Pairwise (fun a b => lc a ≠ lc b) :=
  hL _ (Dict.mem_of_get name L chs h)

theorem joinLedgerUpdate_inv (lc : Str → Str) (s t : Str) (L : Ledger) (hL : LedgerInv lc L) :
    LedgerInv lc (joinLedgerUpdate lc s t L).1 := by
  have h1 : LedgerInv lc (if (Dict.get s L).isNone then Dict.set s [] L else L) := by
    split
    · exact LedgerInv.set lc L s [] hL List.Pairwise.nil
    · exact hL
  unfold joinLedgerUpdate
  generalize (if (Dict.get s L).isNone then Dict.set s [] L else L) = L1 at h1
  have hc : ((Dict.get s L1).getD []).Pairwise (fun a b => lc a ≠ lc b) := by
    cases hg : Dict.get s L1 with
    | none => exact List.Pairwise.nil
    | some chs => exact LedgerInv.get lc L1 s chs h1 hg
  simp only
  split
  · rename_i hany
    apply LedgerInv.set lc L1 s _ h1
    rw [List.pairwise_append]
    refine ⟨hc, List.pairwise_singleton _ _, ?_⟩
    intro a ha b hb
    rw [List.mem_singleton] at hb
    subst hb
    intro hab
    simp only [Bool.not_eq_true', List.any_eq_false, decide_eq_true_eq] at hany
    exact hany a ha hab
  · exact h1

@[simp] theorem World.log_joinedChannels (w : World) (n : Str) (c : Call) (o : Outcome) :
    (w.log n c o).joinedChannels = w.joinedChannels := rfl

@[simp] theorem World.log_files (w : World) (n : Str) (c : Call) (o : Outcome) :
    (w.log n c o).files = w.files := rfl

@[simp] theorem World.log_sessionsInfo (w : World) (n : Str) (c : Call) (o : Outcome) :
    (w.log n c o).sessionsInfo = w.sessionsInfo := rfl

theorem joinRecordUpdate_ledger (lc : Str → Str) (r : JoinRemote) (s t : Str) (w : World) :
    (joinRecordUpdate lc r s t w).2.joinedChannels =
      (joinLedgerUpdate lc s t w.joinedChannels).1 := by
  unfold joinRecordUpdate joinDisconnect
  simp only
  split
  · split <;> rfl
  · rfl

theorem joinRecord_cases (lc : Str → Str) (r : JoinRemote) (s t : Str) (w : World) :
    joinRecord lc r s t w = (some someNotFunction, w) ∨
    joinRecord lc r s t w = joinRecordUpdate lc r s t w := by
  unfold joinRecord
  split
  · exact Or.inl rfl
  · exact Or.inr rfl

theorem joinRecord_ledger (lc : Str → Str) (r : JoinRemote) (s t : Str) (w : World) :
    (joinRecord lc r s t w).2.joinedChannels = w.joinedChannels ∨
    (joinRecord lc r s t w).2.joinedChannels = (joinLedgerUpdate lc s t w.joinedChannels).1 := by
  rcases joinRecord_cases lc r s t w with h | h <;> rw [h]
  · exact Or.inl rfl
  · exact Or.inr (joinRecordUpdate_ledger lc r s t w)

theorem joinRecord_ledger_of_none (lc : Str → Str) (r : JoinRemote) (s t : Str) (w : World)
    (hn : (joinRecord lc r s t w).1 = none) :
    (joinRecord lc r s t w).2.joinedChannels = (joinLedgerUpdate lc s t w.joinedChannels).1 := by
  rcases joinRecord_cases lc r s t w with h | h
  · rw [h] at hn
    exact absurd hn (by simp)
  · rw [h]
    exact joinRecordUpdate_ledger lc r s t w

theorem joinBody_ledger (lc : Str → Str) (r : JoinRemote) (s t : Str) (w : World) :
    (joinBody lc r s t w).2.joinedChannels = w.joinedChannels ∨
    (joinBody lc r s t w).2.joinedChannels = (joinLedgerUpdate lc s t w.joinedChannels).1 := by
  unfold joinBody
  split
  · exact Or.inl rfl
  · split
    · exact Or.inl rfl
    · simp only
      split
      · exact Or.inl rfl
      · split
        · exact joinRecord_ledger lc r s t _
        · split
          · exact Or.inl rfl
          · exact joinRecord_ledger lc r s t _

theorem joinChannelWithSession_world (lc : Str → Str) (r : JoinRemote) (s t : Str) (w : World) :
    (joinChannelWithSession lc r s t w).2 = (joinBody lc r s t w).2 := by
  unfold joinChannelWithSession
  split <;> simp_all

theorem joinChannelWithSession_inv (lc : Str → Str) (r : JoinRemote) (s t : Str) (w : World)
    (h : LedgerInv lc w.joinedChannels) :
    LedgerInv lc (joinChannelWithSession lc r s t w).2.joinedChannels := by
  rw [joinChannelWithSession_world]
  rcases joinBody_ledger lc r s t w with h1 | h1 <;> rw [h1]
  · exact h
  · exact joinLedgerUpdate_inv lc s t _ h

theorem joinLoop_inv (lc : Str → Str) (rem : Nat → JoinRemote) (delay : Nat) (link : Str)
    (sessions : List Str) (i : Nat) (results : List Str) (sc : Nat) (w : World)
    (h : LedgerInv lc w.joinedChannels) :
    LedgerInv lc (joinLoop (joinWith lc rem) delay link i sessions results sc w).2.joinedChannels := by
  induction sessions generalizing i results sc w with
  | nil => exact h
  | cons file rest ih =>
    simp only [joinLoop]
    apply ih
    simp only [joinWith]
    apply joinChannelWithSession_inv
    split
    · exact h
    · exact h

theorem leaveLedgerUpdate_inv (lc : Str → Str) (s t : Str) (L L1 : Ledger)
    (hL : LedgerInv lc L) (h : leaveLedgerUpdate s t L = some L1) : LedgerInv lc L1 := by
  unfold leaveLedgerUpdate at h
  split at h
  · exact absurd h (by simp)
  · rename_i chs hg
    simp only [Option.some.injEq] at h
    subst h
    apply LedgerInv.set lc L s _ hL
    exact (LedgerInv.get lc L s chs hL hg).sublist (List.filter_sublist _)

theorem leaveCalls_ledger (t : LeaveTargetRemote) (name username : Str) (w : World) :
    (leaveCalls t name username w).2.joinedChannels = w.joinedChannels := by
  unfold leaveCalls
  simp only
  split
  · rfl
  · split
    · rfl
    · split <;> rfl

theorem leaveTarget_inv (lc : Str → Str) (t : LeaveTargetRemote) (name link : Str) (w : World)
    (h : LedgerInv lc w.joinedChannels) :
    LedgerInv lc (leaveTarget t name link w).2.joinedChannels := by
  have hc := leaveCalls_ledger t name (joinUsername link) w
  unfold leaveTarget
  split
  · rename_i e w1 heq
    rw [heq] at hc
    simp only at hc
    show LedgerInv lc w1.joinedChannels
    rw [hc]
    exact h
  · rename_i w1 heq
    rw [heq] at hc
    simp only at hc
    split
    · show LedgerInv lc w1.joinedChannels
      rw [hc]
      exact h
    · rename_i L hL
      rw [hc] at hL
      exact leaveLedgerUpdate_inv lc name link _ L h hL

theorem leaveTargets_inv (lc : Str → Str) (r : LeaveRemote) (name : Str) (channels : List Str)
    (li : Nat) (c : LeaveCounters) (w : World) (h : LedgerInv lc w.joinedChannels) :
    LedgerInv lc (leaveTargets r name li channels c w).2.joinedChannels := by
  induction channels generalizing li c w with
  | nil => exact h
  | cons link rest ih =>
    simp only [leaveTargets]
    apply ih
    apply leaveTarget_inv
    split <;> exact h

theorem leaveSessionBody_inv (lc : Str → Str) (r : LeaveRemote) (name : Str)
    (channels : List Str) (c : LeaveCounters) (w : World) (h : LedgerInv lc w.joinedChannels) :
    LedgerInv lc (leaveSessionBody r name channels c w).2.2.joinedChannels := by
  unfold leaveSessionBody
  split
  · exact h
  · split
    · exact h
    · simp only
      split
      · exact h
      · exact leaveTargets_inv lc r name channels 0 c _ h

theorem leaveSession_inv (lc : Str → Str) (r : LeaveRemote) (file : Str) (acc : LeaveAcc)
    (w : World) (h : LedgerInv lc w.joinedChannels) :
    LedgerInv lc (leaveSession r file acc w).2.joinedChannels := by
  unfold leaveSession
  simp only
  split
  · exact h
  · exact leaveSessionBody_inv lc r _ _ _ w h

theorem leaveIteration_cases (r : LeaveRemote) (file : Str) (acc : LeaveAcc) (w : World) :
    (Dict.lookup (sessionNameOf file) w.joinedChannels = Lookup.inherited ∧
      leaveIteration r file acc w = (some notIterable, acc, w)) ∨
    (Dict.lookup (sessionNameOf file) w.joinedChannels ≠ Lookup.inherited ∧
      leaveIteration r file acc w = (none, leaveSession r file acc w)) := by
  unfold leaveIteration
  split
  · rename_i h
    exact Or.inl ⟨h, rfl⟩
  · rename_i h
    exact Or.inr ⟨h, rfl⟩

theorem leaveSessions_inv (lc : Str → Str) (rem : Nat → LeaveRemote) (sessions : List Str)
    (i : Nat) (acc : LeaveAcc) (w : World) (h : LedgerInv lc w.joinedChannels) :
    LedgerInv lc (leaveSessions rem i sessions acc w).2.2.joinedChannels := by
  induction sessions generalizing i acc w with
  | nil => exact h
  | cons file rest ih =>
    simp only [leaveSessions]
    rcases leaveIteration_cases (rem i) file acc w with ⟨-, hc⟩ | ⟨-, hc⟩ <;> rw [hc]
    · exact h
    · exact ih _ _ _ (leaveSession_inv lc _ file acc w h)

theorem confirmLeaveAll_world (rem : Nat → LeaveRemote) (save : Outcome) (w : World) :
    (confirmLeaveAll rem save w).2 =
      (leaveSessions rem 0 (getAvailableSessions w) ⟨[], 0, 0⟩ w).2.2 := by
  unfold confirmLeaveAll
  split
  · rename_i heq
    rw [heq]
  · rename_i heq
    rw [heq]
    cases save <;> rfl

theorem Dict.get_of_lookup_inherited {α : Type} (name : Str) (d : Dict α)
    (h : Dict.lookup name d = Lookup.inherited) : Dict.get name d = none := by
  unfold Dict.lookup at h
  cases hg : Dict.get name d with
  | none => rfl
  | some v =>
    rw [hg] at h
    exact absurd h (by simp)

theorem Dict.get_of_lookup_undefined {α : Type} (name : Str) (d : Dict α)
    (h : Dict.lookup name d = Lookup.undefined) : Dict.get name d = none := by
  unfold Dict.lookup at h
  cases hg : Dict.get name d with
  | none => rfl
  | some v =>
    rw [hg] at h
    exact absurd h (by simp)

theorem Dict.lookup_of_get {α : Type} (name : Str) (d : Dict α) (v : α)
    (h : Dict.get name d = some v) : Dict.lookup name d = Lookup.own v := by
  unfold Dict.lookup
  rw [h]

theorem deleteLedgerEntry_frame (r : DeleteRemote) (name : Str) (w : World) :
    (deleteLedgerEntry r name w).2.files = w.files ∧
    (deleteLedgerEntry r name w).2.sessionsInfo = w.sessionsInfo ∧
    ((deleteLedgerEntry r name w).2.joinedChannels = w.joinedChannels ∨
      (deleteLedgerEntry r name w).2.joinedChannels = Dict.delete name w.joinedChannels) := by
  unfold deleteLedgerEntry
  split
  · exact ⟨rfl, rfl, Or.inr rfl⟩
  · exact ⟨rfl, rfl, Or.inl rfl⟩
  · exact ⟨rfl, rfl, Or.inl rfl⟩

theorem deleteProfileEntry_frame (r : DeleteRemote) (name : Str) (w : World) :
    (deleteProfileEntry r name w).2.files = w.files ∧
    (deleteProfileEntry r name w).2.joinedChannels = w.joinedChannels := by
  unfold deleteProfileEntry
  split <;> exact ⟨rfl, rfl⟩

theorem deleteSession_ledger (r : DeleteRemote) (name : Str) (w : World) :
    (deleteSession r name w).2.joinedChannels = w.joinedChannels ∨
    (deleteSession r name w).2.joinedChannels = Dict.delete name w.joinedChannels := by
  unfold deleteSession
  split
  · exact Or.inl rfl
  · split
    · exact Or.inl rfl
    · have h2 := (deleteLedgerEntry_frame r name
        { w with files := Dict.delete (name ++ sessionExt) w.files }).2.2
      have h3 := (deleteProfileEntry_frame r name (deleteLedgerEntry r name
        { w with files := Dict.delete (name ++ sessionExt) w.files }).2).2
      simp only
      split
      · rename_i e w2 heq
        rw [heq] at h2
        exact h2
      · rename_i w2 heq
        rw [heq] at h2 h3
        simp only at h2 h3
        split
        · rename_i e w3 heq3
          rw [heq3] at h3
          simp only at h3
          rw [h3]
          exact h2
        · rename_i w3 heq3
          rw [heq3] at h3
          simp only at h3
          rw [h3]
          exact h2

theorem Action.run_inv (lc : Str → Str) (delay : Nat) (a : Action) (w : World)
    (h : LedgerInv lc w.joinedChannels) : LedgerInv lc (a.run lc delay w).joinedChannels := by
  cases a with
  | joinRequest link =>
    simp only [Action.run, handleChannelJoinRequest]
    split
    · exact h
    · split <;> exact h
  | forceJoin rem link =>
    simp only [Action.run, processJoinRequest, processJoinRequestOn]
    exact joinLoop_inv lc rem delay link _ 0 [] 0 w h
  | leaveAll rem save =>
    simp only [Action.run, confirmLeaveAll_world]
    exact leaveSessions_inv lc rem _ 0 _ w h
  | delete r name =>
    simp only [Action.run]
    rcases deleteSession_ledger r name w with h1 | h1 <;> rw [h1]
    · exact h
    · exact LedgerInv.delete lc _ name h

/-- C4: from a state whose ledger has no two entries of one record equal
ignoring case, every state reached through the handlers has such a ledger, and
there the ledger update of a successful join (also of an already joined
target), the ledger update of a successful leave, and the removal of a
session's entry each give such a ledger again. -/
theorem ledgerInv_reachable (lc : Str → Str) (delay : Nat) (w0 w : World)
    (h0 : LedgerInv lc w0.joinedChannels) (hr : Reachable lc delay w0 w) :
    LedgerInv lc w.joinedChannels ∧
    (∀ s t, LedgerInv lc (joinLedgerUpdate lc s t w.joinedChannels).1) ∧
    (∀ s t L, leaveLedgerUpdate s t w.joinedChannels = some L → LedgerInv lc L) ∧
    (∀ s, LedgerInv lc (Dict.delete s w.joinedChannels)) := by
  have hw : LedgerInv lc w.joinedChannels := by
    induction hr with
    | start => exact h0
    | act a w _ ih => exact Action.run_inv lc delay a w ih
    | other w w1 _ heq ih => exact heq ▸ ih
  exact ⟨hw, fun s t => joinLedgerUpdate_inv lc s t _ hw,
    fun s t L hL => leaveLedgerUpdate_inv lc s t _ L hw hL,
    fun s => LedgerInv.delete lc _ s hw⟩

theorem ledgerInv_reachable_witness :
    LedgerInv asciiLower demoWorld.joinedChannels ∧
    LedgerInv asciiLower
      ((Action.forceJoin (fun _ => joinAllOk) "@News".toList).run asciiLower 3000
        demoWorld).joinedChannels :=
  ⟨by decide,
    (ledgerInv_reachable asciiLower 3000 demoWorld _ (by decide)
      (Reachable.act (Action.forceJoin (fun _ => joinAllOk) "@News".toList) demoWorld
        Reachable.start)).1⟩

/-! ## Join then leave -/

theorem Dict.set_set {α : Type} (name : Str) (u v : α) (d : Dict α) :
    Dict.set name v (Dict.set name u d) = Dict.set name v d := by
  induction d with
  | nil => simp [Dict.set]
  | cons e rest ih =>
    obtain ⟨k, x⟩ := e
    by_cases hk : k = name
    · simp [Dict.set, hk]
    · simp [Dict.set, hk, ih]

theorem Dict.set_of_get {α : Type} (name : Str) (v : α) (d : Dict α)
    (h : Dict.get name d = some v) : Dict.set name v d = d := by
  induction d with
  | nil => simp [Dict.get] at h
  | cons e rest ih =>
    obtain ⟨k, x⟩ := e
    by_cases hk : k = name
    · simp only [Dict.get, hk, if_true, Option.some.injEq] at h
      simp [Dict.set, hk, h]
    · simp only [Dict.get, hk, if_false] at h
      simp [Dict.set, hk, ih h]

theorem filter_ne_append_self (chs : List Str) (t : Str) (h : t ∉ chs) :
    (chs ++ [t]).filter (fun ch => decide (ch ≠ t)) = chs := by
  rw [List.filter_append]
  have h1 : chs.filter (fun ch => decide (ch ≠ t)) = chs := by
    rw [List.filter_eq_self]
    intro a ha
    have : a ≠ t := fun hat => h (hat ▸ ha)
    simpa using this
  rw [h1]
  simp

/-- C5 as stated fails: when the session's record already holds the target,
the join adds nothing and the leave removes the entry that was there. -/
theorem join_then_leave_counterexample :
    ¬ ∀ (L : Ledger) (s t : Str),
      leaveLedgerUpdate s t (joinLedgerUpdate asciiLower s t L).1 = some L := by
  intro h
  exact absurd (h [("alice".toList, ["@news".toList])] "alice".toList "@news".toList) (by decide)

/-- C5, amended: when no entry of the session's record equals the target
ignoring case, the ledger update of a join followed by the ledger update of a
leave of the same target gives every session the record it had before (a
missing record counting as empty), and gives back the very same ledger when
the session already had a record. -/
theorem join_then_leave (lc : Str → Str) (L : Ledger) (s t : Str)
    (h : ∀ ch ∈ (Dict.get s L).getD [], lc ch ≠ lc t) :
    ∃ L1, leaveLedgerUpdate s t (joinLedgerUpdate lc s t L).1 = some L1 ∧
      (∀ n, (Dict.get n L1).getD [] = (Dict.get n L).getD []) ∧
      ((Dict.get s L).isSome = true → L1 = L) := by
  cases hg : Dict.get s L with
  | none =>
    refine ⟨Dict.set s [] L, ?_, ?_, by simp⟩
    · simp [joinLedgerUpdate, leaveLedgerUpdate, hg, Dict.get_set_self, Dict.set_set]
    · intro n
      by_cases hn : n = s
      · subst hn
        simp [Dict.get_set_self, hg]
      · rw [Dict.get_set_other s n [] L hn]
  | some chs =>
    rw [hg] at h
    simp only [Option.getD_some] at h
    have hany : chs.any (fun ch => decide (lc ch = lc t)) = false := by
      simpa using h
    have hmem : t ∉ chs := fun hm => h t hm rfl
    refine ⟨L, ?_, fun _ => rfl, fun _ => rfl⟩
    have hj : (joinLedgerUpdate lc s t L).1 = Dict.set s (chs ++ [t]) L := by
      simp [joinLedgerUpdate, hg, hany]
    rw [hj]
    unfold leaveLedgerUpdate
    rw [Dict.get_set_self]
    simp only []
    rw [filter_ne_append_self chs t hmem, Dict.set_set, Dict.set_of_get s chs L hg]

theorem join_then_leave_witness :
    ∃ L1, leaveLedgerUpdate "alice".toList "@sport".toList
        (joinLedgerUpdate asciiLower "alice".toList "@sport".toList demoWorld.joinedChannels).1
          = some L1 ∧
      (∀ n, (Dict.get n L1).getD [] = (Dict.get n demoWorld.joinedChannels).getD []) ∧
      ((Dict.get "alice".toList demoWorld.joinedChannels).isSome = true →
        L1 = demoWorld.joinedChannels) :=
  join_then_leave asciiLower demoWorld.joinedChannels "alice".toList "@sport".toList (by decide)

/-! ## What a successful join records -/

theorem joinLedgerUpdate_get (lc : Str → Str) (s t : Str) (L : Ledger) :
    Dict.get s (joinLedgerUpdate lc s t L).1 =
      some (if ((Dict.get s L).getD []).any (fun ch => decide (lc ch = lc t)) then
        (Dict.get s L).getD [] else (Dict.get s L).getD [] ++ [t]) := by
  cases hg : Dict.get s L with
  | none => simp [joinLedgerUpdate, hg, Dict.get_set_self]
  | some chs =>
    by_cases hany : chs.any (fun ch => decide (lc ch = lc t)) = true
    · simp only [joinLedgerUpdate, hg, Option.isNone_some, Bool.false_eq_true, if_false,
        Option.getD_some, hany, Bool.not_true, if_true]
    · simp only [joinLedgerUpdate, hg, Option.isNone_some, Bool.false_eq_true, if_false,
        Option.getD_some, hany, Bool.not_false, if_true, Dict.get_set_self]

theorem joinRecordUpdate_success (lc : Str → Str) (r : JoinRemote) (s t : Str) (w : World)
    (h : (joinRecordUpdate lc r s t w).1 = none) :
    (joinRecordUpdate lc r s t w).2.trace = w.trace ++ [⟨s, Call.disconnect, true⟩] := by
  unfold joinRecordUpdate joinDisconnect at h ⊢
  simp only at h ⊢
  split at h
  · split at h
    · exact absurd h (by simp)
    · rename_i hsave
      simp only at h
      simp [*, World.log]
  · simp only at h
    simp [*, World.log]

theorem joinRecord_success (lc : Str → Str) (r : JoinRemote) (s t : Str) (w : World)
    (h : (joinRecord lc r s t w).1 = none) :
    (joinRecord lc r s t w).2.trace = w.trace ++ [⟨s, Call.disconnect, true⟩] := by
  rcases joinRecord_cases lc r s t w with hc | hc
  · rw [hc] at h
    exact absurd h (by simp)
  · rw [hc] at h ⊢
    exact joinRecordUpdate_success lc r s t w h

theorem joinBody_success_trace (lc : Str → Str) (r : JoinRemote) (s t : Str) (w : World)
    (h : (joinBody lc r s t w).1 = none) :
    (joinBody lc r s t w).2.joinedChannels = (joinLedgerUpdate lc s t w.joinedChannels).1 ∧
    ((joinBody lc r s t w).2.trace = w.trace ++
        [⟨s, Call.connect, true⟩, ⟨s, Call.joinChannel (joinUsername t), true⟩,
          ⟨s, Call.disconnect, true⟩] ∨
      (joinBody lc r s t w).2.trace = w.trace ++
        [⟨s, Call.connect, true⟩, ⟨s, Call.joinChannel (joinUsername t), false⟩,
          ⟨s, Call.importChatInvite (joinUsername t), true⟩, ⟨s, Call.disconnect, true⟩]) := by
  unfold joinBody at h ⊢
  split at h
  · exact absurd h (by simp)
  · split at h
    · exact absurd h (by simp)
    · simp only at h ⊢
      split at h
      · exact absurd h (by simp)
      · rename_i hconn
        split at h
        · rename_i hjoin
          simp only [hconn, hjoin] at h ⊢
          refine ⟨by rw [joinRecord_ledger_of_none lc r s t _ h]; rfl, Or.inl ?_⟩
          rw [joinRecord_success lc r s t _ h]
          simp [World.log]
        · rename_i e hjoin
          split at h
          · exact absurd h (by simp)
          · rename_i himp
            simp only [hconn, hjoin, himp] at h ⊢
            refine ⟨by rw [joinRecord_ledger_of_none lc r s t _ h]; rfl, Or.inr ?_⟩
            rw [joinRecord_success lc r s t _ h]
            simp [World.log]

theorem joinChannelWithSession_success_iff (lc : Str → Str) (r : JoinRemote) (s t : Str)
    (w : World) :
    (joinChannelWithSession lc r s t w).1.success = true ↔ (joinBody lc r s t w).1 = none := by
  unfold joinChannelWithSession
  split <;> simp_all

/-- C6 as stated fails: after a successful join through the full link, the
record holds the link as submitted, not the `@`-prefixed handle that
`handleChannelJoinRequest` displays. -/
theorem join_records_link_counterexample :
    (joinChannelWithSession asciiLower joinAllOk "bob".toList "https://t.me/foo".toList
        demoWorld).1.success = true ∧
    displayUsername "https://t.me/foo".toList = "@foo".toList ∧
    Dict.get "bob".toList
      (joinChannelWithSession asciiLower joinAllOk "bob".toList "https://t.me/foo".toList
        demoWorld).2.joinedChannels = some ["https://t.me/foo".toList] ∧
    "@foo".toList ∉ ["https://t.me/foo".toList] := by
  decide

/-- C6, amended: after a successful join of target `t` by session `s`, the
record of `s` is its previous record, with `t` appended exactly as submitted
unless an entry equal to `t` ignoring case was already there; the protocol
join call, and the fallback when it is used, receive the handle
`joinUsername t` (for `@x` and the link forms that is `x`, without `@`). -/
theorem joinChannelWithSession_success_records (lc : Str → Str) (r : JoinRemote) (s t : Str)
    (w : World) (hs : (joinChannelWithSession lc r s t w).1.success = true) :
    Dict.get s (joinChannelWithSession lc r s t w).2.joinedChannels =
      some (if ((Dict.get s w.joinedChannels).getD []).any (fun ch => decide (lc ch = lc t)) then
        (Dict.get s w.joinedChannels).getD [] else (Dict.get s w.joinedChannels).getD [] ++ [t]) ∧
    ((joinChannelWithSession lc r s t w).2.trace = w.trace ++
        [⟨s, Call.connect, true⟩, ⟨s, Call.joinChannel (joinUsername t), true⟩,
          ⟨s, Call.disconnect, true⟩] ∨
      (joinChannelWithSession lc r s t w).2.trace = w.trace ++
        [⟨s, Call.connect, true⟩, ⟨s, Call.joinChannel (joinUsername t), false⟩,
          ⟨s, Call.importChatInvite (joinUsername t), true⟩, ⟨s, Call.disconnect, true⟩]) := by
  rw [joinChannelWithSession_success_iff] at hs
  rw [joinChannelWithSession_world]
  obtain ⟨h1, h2⟩ := joinBody_success_trace lc r s t w hs
  exact ⟨by rw [h1, joinLedgerUpdate_get], h2⟩

theorem joinChannelWithSession_success_records_witness :
    Dict.get "bob".toList
      (joinChannelWithSession asciiLower joinAllOk "bob".toList "@Foo".toList
        demoWorld).2.joinedChannels = some ["@Foo".toList] ∧
    (joinChannelWithSession asciiLower joinAllOk "bob".toList "@Foo".toList demoWorld).2.trace =
      [⟨"bob".toList, Call.connect, true⟩, ⟨"bob".toList, Call.joinChannel "Foo".toList, true⟩,
        ⟨"bob".toList, Call.disconnect, true⟩] := by
  have h := joinChannelWithSession_success_records asciiLower joinAllOk "bob".toList
    "@Foo".toList demoWorld (by decide)
  exact ⟨h.1.trans (by decide), by decide⟩

/-! ## Pre-check of a join request -/

theorem alreadyJoinedLoop_eq (lc : Str → Str) (link : Str) (L : Ledger) (acc : List Str) :
    alreadyJoinedLoop lc link L acc =
      acc ++ (L.filter (fun e => e.2.any (fun ch => decide (lc ch = lc link)))).map Prod.fst := by
  induction L generalizing acc with
  | nil => simp [alreadyJoinedLoop]
  | cons e rest ih =>
    obtain ⟨name, channels⟩ := e
    by_cases h : channels.any (fun ch => decide (lc ch = lc link)) = true
    · simp [alreadyJoinedLoop, h, ih, List.filter_cons]
    · simp [alreadyJoinedLoop, h, ih, List.filter_cons]

theorem mem_alreadyJoinedLoop (lc : Str → Str) (link : Str) (L : Ledger) (name : Str) :
    name ∈ alreadyJoinedLoop lc link L [] ↔
      ∃ chs, (name, chs) ∈ L ∧ ∃ ch ∈ chs, lc ch = lc link := by
  rw [alreadyJoinedLoop_eq]
  simp only [List.nil_append, List.mem_map, List.mem_filter, List.any_eq_true, decide_eq_true_eq]
  constructor
  · rintro ⟨⟨n, chs⟩, ⟨hm, hc⟩, rfl⟩
    exact ⟨chs, hm, hc⟩
  · rintro ⟨chs, hm, hc⟩
    exact ⟨(name, chs), ⟨hm, hc⟩, rfl⟩

/-- C7: with at least one session available, `handleChannelJoinRequest` answers
with the `Already Joined` warning exactly when some record of the ledger holds
the target ignoring case; the sessions the warning lists are exactly the
sessions with such a record, in ledger order; and in every case the request
leaves the whole state as it was: no remote call is made and the ledger is
unchanged. -/
theorem handleChannelJoinRequest_warning (lc : Str → Str) (link : Str) (w : World)
    (hs : getAvailableSessions w ≠ []) :
    (handleChannelJoinRequest lc link w).2 = w ∧
    ((∃ u l n f, (handleChannelJoinRequest lc link w).1 = JoinRequestReply.alreadyJoined u l n f) ↔
      ∃ name chs, (name, chs) ∈ w.joinedChannels ∧ ∃ ch ∈ chs, lc ch = lc link) ∧
    (∀ u l n f, (handleChannelJoinRequest lc link w).1 = JoinRequestReply.alreadyJoined u l n f →
      l = (w.joinedChannels.filter
            (fun e => e.2.any (fun ch => decide (lc ch = lc link)))).map Prod.fst ∧
      ∀ name, name ∈ l ↔ ∃ chs, (name, chs) ∈ w.joinedChannels ∧ ∃ ch ∈ chs, lc ch = lc link) := by
  have hlen : ¬ (getAvailableSessions w).length = 0 := by
    simpa using hs
  unfold handleChannelJoinRequest
  simp only [hlen, if_false]
  by_cases hpos : (alreadyJoinedLoop lc link w.joinedChannels []).length > 0
  · simp only [hpos, if_true]
    refine ⟨trivial, ?_, ?_⟩
    · constructor
      · intro _
        obtain ⟨name, hn⟩ := List.exists_mem_of_length_pos hpos
        exact ⟨name, (mem_alreadyJoinedLoop lc link _ name).1 hn⟩
      · intro _
        exact ⟨_, _, _, _, rfl⟩
    · intro u l n f heq
      simp only [JoinRequestReply.alreadyJoined.injEq] at heq
      obtain ⟨-, rfl, -, -⟩ := heq
      refine ⟨by rw [alreadyJoinedLoop_eq]; rfl, fun name => mem_alreadyJoinedLoop lc link _ name⟩
  · simp only [hpos, if_false]
    refine ⟨trivial, ?_, ?_⟩
    · constructor
      · rintro ⟨u, l, n, f, h⟩
        exact absurd h (by simp)
      · rintro ⟨name, hn⟩
        have := (mem_alreadyJoinedLoop lc link _ name).2 hn
        exact absurd (List.length_pos_of_mem this) hpos
    · intro u l n f h
      exact absurd h (by simp)

theorem handleChannelJoinRequest_warning_witness :
    (handleChannelJoinRequest asciiLower "@NEWS".toList demoWorld).2 = demoWorld ∧
    (handleChannelJoinRequest asciiLower "@NEWS".toList demoWorld).1 =
      JoinRequestReply.alreadyJoined "@NEWS".toList ["alice".toList] 2 "@NEWS".toList :=
  ⟨(handleChannelJoinRequest_warning asciiLower "@NEWS".toList demoWorld (by decide)).1,
    by decide⟩

/-! ## Connection handling of a join -/

/-- C8 fails on the code: when the session connects and both the primary join
call and the invite-hash fallback throw, `joinChannelWithSession` returns a
failure without ever calling `disconnect`. -/
theorem joinChannelWithSession_no_disconnect :
    (joinChannelWithSession asciiLower joinBothRejected "bob".toList "@news".toList
        demoWorld).1 = ⟨false, some "INVITE_HASH_INVALID".toList⟩ ∧
    (joinChannelWithSession asciiLower joinBothRejected "bob".toList "@news".toList
        demoWorld).2.trace =
      [⟨"bob".toList, Call.connect, true⟩,
        ⟨"bob".toList, Call.joinChannel "news".toList, false⟩,
        ⟨"bob".toList, Call.importChatInvite "news".toList, false⟩] ∧
    ∀ e ∈ (joinChannelWithSession asciiLower joinBothRejected "bob".toList "@news".toList
        demoWorld).2.trace, e.call ≠ Call.disconnect := by
  decide

/-! ## Leave all -/

theorem TraceExt.refl (name : Str) (w : World) : TraceExt name w w :=
  ⟨[], by simp, by simp⟩

theorem TraceExt.trans {name : Str} {w w1 w2 : World} (h1 : TraceExt name w w1)
    (h2 : TraceExt name w1 w2) : TraceExt name w w2 := by
  obtain ⟨e1, t1, m1⟩ := h1
  obtain ⟨e2, t2, m2⟩ := h2
  refine ⟨e1 ++ e2, by rw [t2, t1, List.append_assoc], ?_⟩
  intro e he
  rcases List.mem_append.1 he with h | h
  · exact m1 e h
  · exact m2 e h

theorem TraceExt.log (name : Str) (w : World) (c : Call) (o : Outcome) :
    TraceExt name w (w.log name c o) :=
  ⟨[⟨name, c, o.isNone⟩], rfl, by simp⟩

theorem TraceExt.mem {name : Str} {w w1 : World} (h : TraceExt name w w1) (e : Event)
    (he : e ∈ w1.trace) : e ∈ w.trace ∨ e.session = name := by
  obtain ⟨evs, t, m⟩ := h
  rw [t] at he
  rcases List.mem_append.1 he with h1 | h1
  · exact Or.inl h1
  · exact Or.inr (m e h1)

theorem leaveCalls_spec (t : LeaveTargetRemote) (name username : Str) (w : World) :
    ((leaveCalls t name username w).1 = none ↔ leaveSucceeds t = true) ∧
    (leaveCalls t name username w).2.files = w.files ∧
    TraceExt name w (leaveCalls t name username w).2 := by
  unfold leaveCalls leaveSucceeds
  simp only
  split
  · rename_i h
    exact ⟨by simp [h], rfl, TraceExt.log _ _ _ _⟩
  · rename_i e h
    split
    · rename_i e2 h2
      exact ⟨by simp [h, h2], rfl, (TraceExt.log _ _ _ _).trans (TraceExt.log _ _ _ _)⟩
    · rename_i h2
      split
      · rename_i e3 h3
        exact ⟨by simp [h, h2, h3], rfl,
          ((TraceExt.log _ _ _ _).trans (TraceExt.log _ _ _ _)).trans (TraceExt.log _ _ _ _)⟩
      · rename_i h3
        refine ⟨by simp [h, h2, h3], rfl,
          (((TraceExt.log _ _ _ _).trans (TraceExt.log _ _ _ _)).trans
            (TraceExt.log _ _ _ _)).trans (TraceExt.log _ _ _ _)⟩

theorem leaveTarget_frame (t : LeaveTargetRemote) (name link : Str) (w : World) :
    (leaveTarget t name link w).2.files = w.files ∧
    TraceExt name w (leaveTarget t name link w).2 ∧
    ∀ other, other ≠ name →
      Dict.get other (leaveTarget t name link w).2.joinedChannels =
        Dict.get other w.joinedChannels := by
  obtain ⟨-, hf, ht⟩ := leaveCalls_spec t name (joinUsername link) w
  have hl := leaveCalls_ledger t name (joinUsername link) w
  unfold leaveTarget
  split
  · rename_i e w1 heq
    rw [heq] at hf ht hl
    exact ⟨hf, ht, fun other _ => by rw [show (false, w1).2 = w1 from rfl, hl]⟩
  · rename_i w1 heq
    rw [heq] at hf ht hl
    simp only at hf ht hl
    split
    · exact ⟨hf, ht, fun other _ => by rw [show (false, w1).2 = w1 from rfl, hl]⟩
    · rename_i L hL
      refine ⟨hf, ht, fun other ho => ?_⟩
      unfold leaveLedgerUpdate at hL
      split at hL
      · exact absurd hL (by simp)
      · simp only [Option.some.injEq] at hL
        subst hL
        simp only
        rw [Dict.get_set_other _ _ _ _ ho, hl]

theorem leaveTarget_spec (t : LeaveTargetRemote) (name link : Str) (w : World) (cur : List Str)
    (hcur : Dict.get name w.joinedChannels = some cur) :
    (leaveSucceeds t = true →
      (leaveTarget t name link w).1 = true ∧
      Dict.get name (leaveTarget t name link w).2.joinedChannels =
        some (cur.filter (fun ch => decide (ch ≠ link)))) ∧
    (leaveSucceeds t = false →
      (leaveTarget t name link w).1 = false ∧
      (leaveTarget t name link w).2.joinedChannels = w.joinedChannels) := by
  obtain ⟨hs, -, -⟩ := leaveCalls_spec t name (joinUsername link) w
  have hl := leaveCalls_ledger t name (joinUsername link) w
  unfold leaveTarget
  split
  · rename_i e w1 heq
    rw [heq] at hs hl
    simp only at hs hl
    constructor
    · intro h
      exact absurd (hs.2 h) (by simp)
    · intro _
      exact ⟨rfl, hl⟩
  · rename_i w1 heq
    rw [heq] at hs hl
    simp only at hs hl
    have hsucc : leaveSucceeds t = true := hs.1 trivial
    constructor
    · intro _
      simp only [leaveLedgerUpdate, hl, hcur, Dict.get_set_self, and_self]
    · intro h
      rw [hsucc] at h
      exact absurd h (by simp)

theorem filter_ne_of_nodup (done rest : List Str) (link : Str)
    (h : (done ++ link :: rest).Nodup) :
    (done ++ link :: rest).filter (fun ch => decide (ch ≠ link)) = done ++ rest := by
  rw [List.nodup_append] at h
  obtain ⟨-, h2, h3⟩ := h
  have hd : link ∉ done := fun hm => h3 hm (List.mem_cons_self _ _) 
  have hr : link ∉ rest := (List.nodup_cons.1 h2).1
  have e1 : done.filter (fun ch => decide (ch ≠ link)) = done := by
    rw [List.filter_eq_self]
    intro a ha
    have : a ≠ link := fun hat => hd (hat ▸ ha)
    simpa using this
  have e2 : rest.filter (fun ch => decide (ch ≠ link)) = rest := by
    rw [List.filter_eq_self]
    intro a ha
    have : a ≠ link := fun hat => hr (hat ▸ ha)
    simpa using this
  rw [List.filter_append, List.filter_cons, e1, e2]
  simp

theorem leaveTargets_frame (r : LeaveRemote) (name : Str) (channels : List Str) (li : Nat)
    (c : LeaveCounters) (w : World) :
    (leaveTargets r name li channels c w).2.files = w.files ∧
    TraceExt name w (leaveTargets r name li channels c w).2 ∧
    ∀ other, other ≠ name →
      Dict.get other (leaveTargets r name li channels c w).2.joinedChannels =
        Dict.get other w.joinedChannels := by
  induction channels generalizing li c w with
  | nil => exact ⟨rfl, TraceExt.refl _ _, fun _ _ => rfl⟩
  | cons link rest ih =>
    simp only [leaveTargets]
    have hw1 : (if li > 0 then w.log name (Call.sleep 2000) none else w).files = w.files ∧
        TraceExt name w (if li > 0 then w.log name (Call.sleep 2000) none else w) ∧
        (if li > 0 then w.log name (Call.sleep 2000) none else w).joinedChannels
          = w.joinedChannels := by
      split
      · exact ⟨rfl, TraceExt.log _ _ _ _, rfl⟩
      · exact ⟨rfl, TraceExt.refl _ _, rfl⟩
    generalize (if li > 0 then w.log name (Call.sleep 2000) none else w) = w1 at hw1 ⊢
    obtain ⟨f1, t1, l1⟩ := hw1
    obtain ⟨f2, t2, l2⟩ := leaveTarget_frame (r.target li) name link w1
    obtain ⟨f3, t3, l3⟩ := ih (li + 1)
      (if (leaveTarget (r.target li) name link w1).1 = true then
        { c with sessionSuccess := c.sessionSuccess + 1, totalSuccess := c.totalSuccess + 1 }
      else { c with sessionFail := c.sessionFail + 1, totalFail := c.totalFail + 1 })
      (leaveTarget (r.target li) name link w1).2
    refine ⟨by rw [f3, f2, f1], (t1.trans t2).trans t3, fun other ho => ?_⟩
    rw [l3 other ho, l2 other ho, l1]

theorem leaveTargets_record (r : LeaveRemote) (name : Str) (rest : List Str) (li : Nat)
    (c : LeaveCounters) (w : World) (done : List Str)
    (hcur : Dict.get name w.joinedChannels = some (done ++ rest))
    (hnd : (done ++ rest).Nodup) :
    Dict.get name (leaveTargets r name li rest c w).2.joinedChannels =
      some (done ++ keptTargets r li rest) := by
  induction rest generalizing li c w done with
  | nil => simpa [leaveTargets, keptTargets] using hcur
  | cons link rest ih =>
    simp only [leaveTargets, keptTargets]
    have hw1 : (if li > 0 then w.log name (Call.sleep 2000) none else w).joinedChannels
          = w.joinedChannels := by
      split <;> rfl
    generalize (if li > 0 then w.log name (Call.sleep 2000) none else w) = w1 at hw1 ⊢
    rw [← hw1] at hcur
    obtain ⟨hs, hf⟩ := leaveTarget_spec (r.target li) name link w1 _ hcur
    by_cases hsucc : leaveSucceeds (r.target li) = true
    · obtain ⟨h1, h2⟩ := hs hsucc
      rw [filter_ne_of_nodup done rest link hnd] at h2
      simp only [hsucc, if_true]
      apply ih _ _ _ done h2
      exact hnd.sublist (List.Sublist.append_left (List.sublist_cons_self _ _) _)
    · simp only [Bool.not_eq_true] at hsucc
      obtain ⟨h1, h2⟩ := hf hsucc
      simp only [hsucc, Bool.false_eq_true, if_false]
      have := ih (li + 1)
        (if (leaveTarget (r.target li) name link w1).1 = true then
          { c with sessionSuccess := c.sessionSuccess + 1, totalSuccess := c.totalSuccess + 1 }
        else { c with sessionFail := c.sessionFail + 1, totalFail := c.totalFail + 1 })
        (leaveTarget (r.target li) name link w1).2 (done ++ [link])
        (by rw [h2, hcur]; simp) (by simpa using hnd)
      simpa using this

theorem leaveSessionBody_frame (r : LeaveRemote) (name : Str) (channels : List Str)
    (c : LeaveCounters) (w : World) :
    (leaveSessionBody r name channels c w).2.2.files = w.files ∧
    TraceExt name w (leaveSessionBody r name channels c w).2.2 ∧
    ∀ other, other ≠ name →
      Dict.get other (leaveSessionBody r name channels c w).2.2.joinedChannels =
        Dict.get other w.joinedChannels := by
  unfold leaveSessionBody
  split
  · exact ⟨rfl, TraceExt.refl _ _, fun _ _ => rfl⟩
  · split
    · exact ⟨rfl, TraceExt.refl _ _, fun _ _ => rfl⟩
    · simp only
      split
      · exact ⟨rfl, TraceExt.log _ _ _ _, fun _ _ => rfl⟩
      · obtain ⟨f, t, l⟩ := leaveTargets_frame r name channels 0 c (w.log name Call.connect r.connect)
        exact ⟨f, ((TraceExt.log _ _ _ _).trans t).trans (TraceExt.log _ _ _ _), l⟩

theorem leaveSessionBody_connected (r : LeaveRemote) (name : Str) (channels : List Str)
    (c : LeaveCounters) (w : World) (hc : connects r name w = true)
    (hcur : Dict.get name w.joinedChannels = some channels) (hnd : channels.Nodup) :
    Dict.get name (leaveSessionBody r name channels c w).2.2.joinedChannels =
      some (keptTargets r 0 channels) := by
  simp only [connects, Bool.and_eq_true, Option.isSome_iff_exists, Option.isNone_iff_eq_none]
    at hc
  obtain ⟨⟨⟨blob, hb⟩, hr⟩, hcon⟩ := hc
  unfold leaveSessionBody
  simp only [hb, hr, hcon]
  have := leaveTargets_record r name channels 0 c (w.log name Call.connect none) []
    (by simpa using hcur) (by simpa using hnd)
  simpa using this

theorem leaveSessionBody_not_connected (r : LeaveRemote) (name : Str) (channels : List Str)
    (c : LeaveCounters) (w : World) (hc : connects r name w = false) :
    (leaveSessionBody r name channels c w).1 ≠ none ∧
    (leaveSessionBody r name channels c w).2.1 = c ∧
    (leaveSessionBody r name channels c w).2.2.joinedChannels = w.joinedChannels ∧
    ∀ e ∈ (leaveSessionBody r name channels c w).2.2.trace,
      e ∈ w.trace ∨ e.call = Call.connect := by
  unfold leaveSessionBody
  split
  · exact ⟨by simp, rfl, rfl, fun e he => Or.inl he⟩
  · rename_i blob hb
    split
    · exact ⟨by simp, rfl, rfl, fun e he => Or.inl he⟩
    · rename_i hr
      simp only
      split
      · refine ⟨by simp, rfl, rfl, fun e he => ?_⟩
        simp only [World.log, List.mem_append, List.mem_singleton] at he
        rcases he with h | h
        · exact Or.inl h
        · exact Or.inr (by rw [h])
      · rename_i hcon
        simp [connects, hb, hr, hcon] at hc

theorem leaveSession_frame (r : LeaveRemote) (file : Str) (acc : LeaveAcc) (w : World) :
    (leaveSession r file acc w).2.files = w.files ∧
    TraceExt (sessionNameOf file) w (leaveSession r file acc w).2 ∧
    (∀ other, other ≠ sessionNameOf file →
      Dict.get other (leaveSession r file acc w).2.joinedChannels =
        Dict.get other w.joinedChannels) ∧
    ∀ l ∈ acc.results, l ∈ (leaveSession r file acc w).1.results := by
  unfold leaveSession
  simp only
  split
  · exact ⟨rfl, TraceExt.refl _ _, fun _ _ => rfl, fun l hl => hl⟩
  · obtain ⟨f, t, l⟩ := leaveSessionBody_frame r (sessionNameOf file)
      ((Dict.get (sessionNameOf file) w.joinedChannels).getD [])
      ⟨0, 0, acc.totalSuccess, acc.totalFail⟩ w
    exact ⟨f, t, l, fun l hl => List.mem_append_left _ hl⟩

theorem leaveSession_connected (r : LeaveRemote) (file : Str) (acc : LeaveAcc) (w : World)
    (chs : List Str) (hcur : Dict.get (sessionNameOf file) w.joinedChannels = some chs)
    (hne : chs ≠ []) (hnd : chs.Nodup) (hc : connects r (sessionNameOf file) w = true) :
    Dict.get (sessionNameOf file) (leaveSession r file acc w).2.joinedChannels =
      some (keptTargets r 0 chs) := by
  have hlen : ¬ chs.length = 0 := by simpa using hne
  unfold leaveSession
  simp only [hcur, Option.getD_some, hlen, if_false]
  exact leaveSessionBody_connected r _ chs _ w hc hcur hnd

theorem leaveSession_not_connected (r : LeaveRemote) (file : Str) (acc : LeaveAcc) (w : World)
    (chs : List Str) (hcur : Dict.get (sessionNameOf file) w.joinedChannels = some chs)
    (hne : chs ≠ []) (hc : connects r (sessionNameOf file) w = false) :
    (leaveSession r file acc w).2.joinedChannels = w.joinedChannels ∧
    (∀ e ∈ (leaveSession r file acc w).2.trace, e ∈ w.trace ∨ e.call = Call.connect) ∧
    (⟨sessionNameOf file, 0, chs.length⟩ : LeaveLine) ∈ (leaveSession r file acc w).1.results := by
  have hlen : ¬ chs.length = 0 := by simpa using hne
  obtain ⟨h1, h2, h3, h4⟩ := leaveSessionBody_not_connected r (sessionNameOf file) chs
    ⟨0, 0, acc.totalSuccess, acc.totalFail⟩ w hc
  unfold leaveSession
  simp only [hcur, Option.getD_some, hlen, if_false]
  refine ⟨h3, h4, ?_⟩
  cases hb : (leaveSessionBody r (sessionNameOf file) chs ⟨0, 0, acc.totalSuccess, acc.totalFail⟩
      w).1 with
  | none => exact absurd hb h1
  | some e => simp [h2]

theorem connects_congr (r : LeaveRemote) (name : Str) (w w1 : World) (h : w1.files = w.files) :
    connects r name w1 = connects r name w := by
  simp [connects, h]

theorem leaveIteration_of_own (r : LeaveRemote) (file : Str) (acc : LeaveAcc) (w : World)
    (chs : List Str) (hcur : Dict.get (sessionNameOf file) w.joinedChannels = some chs) :
    leaveIteration r file acc w = (none, leaveSession r file acc w) := by
  unfold leaveIteration
  rw [Dict.lookup_of_get _ _ chs hcur]

theorem leaveSessions_frame (rem : Nat → LeaveRemote) (rest : List Str) (i0 : Nat)
    (acc : LeaveAcc) (w : World) (name : Str) (hn : name ∉ rest.map sessionNameOf) :
    Dict.get name (leaveSessions rem i0 rest acc w).2.2.joinedChannels =
      Dict.get name w.joinedChannels ∧
    (∀ e ∈ (leaveSessions rem i0 rest acc w).2.2.trace, e.session = name → e ∈ w.trace) ∧
    ∀ l ∈ acc.results, l ∈ (leaveSessions rem i0 rest acc w).2.1.results := by
  induction rest generalizing i0 acc w with
  | nil => exact ⟨rfl, fun e he _ => he, fun l hl => hl⟩
  | cons f0 rest ih =>
    simp only [List.map_cons, List.mem_cons, not_or] at hn
    simp only [leaveSessions]
    rcases leaveIteration_cases (rem i0) f0 acc w with ⟨-, hc⟩ | ⟨-, hc⟩ <;> rw [hc]
    · exact ⟨rfl, fun e he _ => he, fun l hl => hl⟩
    · obtain ⟨-, t, l, m⟩ := leaveSession_frame (rem i0) f0 acc w
      obtain ⟨h1, h2, h3⟩ := ih (i0 + 1) (leaveSession (rem i0) f0 acc w).1
        (leaveSession (rem i0) f0 acc w).2 hn.2
      refine ⟨by rw [h1, l name hn.1], fun e he hs => ?_, fun x hx => h3 x (m x hx)⟩
      rcases t.mem e (h2 e he hs) with h | h
      · exact h
      · exact absurd (hs ▸ h) hn.1

theorem leaveSessions_record (rem : Nat → LeaveRemote) (rest : List Str) (i0 : Nat)
    (acc : LeaveAcc) (w : World) (hnd : (rest.map sessionNameOf).Nodup) (j : Nat) (file : Str)
    (chs : List Str) (hfile : rest[j]? = some file)
    (hreach : (leaveSessions rem i0 (rest.take j) acc w).1 = none)
    (hcur : Dict.get (sessionNameOf file) w.joinedChannels = some chs) (hne : chs ≠ [])
    (hchs : chs.Nodup) :
    (connects (rem (i0 + j)) (sessionNameOf file) w = true →
      Dict.get (sessionNameOf file) (leaveSessions rem i0 rest acc w).2.2.joinedChannels =
        some (keptTargets (rem (i0 + j)) 0 chs)) ∧
    (connects (rem (i0 + j)) (sessionNameOf file) w = false →
      Dict.get (sessionNameOf file) (leaveSessions rem i0 rest acc w).2.2.joinedChannels =
        some chs ∧
      (∀ e ∈ (leaveSessions rem i0 rest acc w).2.2.trace, e.session = sessionNameOf file →
        e ∈ w.trace ∨ e.call = Call.connect) ∧
      (⟨sessionNameOf file, 0, chs.length⟩ : LeaveLine) ∈
        (leaveSessions rem i0 rest acc w).2.1.results) := by
  induction rest generalizing i0 acc w j with
  | nil => simp at hfile
  | cons f0 rest ih =>
    rw [List.map_cons, List.nodup_cons] at hnd
    cases j with
    | zero =>
      simp only [List.getElem?_cons_zero, Option.some.injEq] at hfile
      subst hfile
      simp only [leaveSessions, leaveIteration_of_own (rem i0) f0 acc w chs hcur]
      obtain ⟨h1, h2, h3⟩ := leaveSessions_frame rem rest (i0 + 1)
        (leaveSession (rem i0) f0 acc w).1 (leaveSession (rem i0) f0 acc w).2
        (sessionNameOf f0) hnd.1
      simp only [Nat.add_zero]
      constructor
      · intro hc
        rw [h1]
        exact leaveSession_connected (rem i0) f0 acc w chs hcur hne hchs hc
      · intro hc
        obtain ⟨g1, g2, g3⟩ := leaveSession_not_connected (rem i0) f0 acc w chs hcur hne hc
        refine ⟨by rw [h1, g1, hcur], fun e he hs => g2 e (h2 e he hs), h3 _ g3⟩
    | succ j =>
      simp only [List.getElem?_cons_succ] at hfile
      simp only [List.take_succ_cons, leaveSessions] at hreach
      simp only [leaveSessions]
      rcases leaveIteration_cases (rem i0) f0 acc w with ⟨-, hit⟩ | ⟨-, hit⟩
      · rw [hit] at hreach
        exact absurd hreach (by simp)
      · rw [hit] at hreach ⊢
        simp only at hreach ⊢
        have hmem : sessionNameOf file ∈ rest.map sessionNameOf :=
          List.mem_map_of_mem _ (List.getElem?_mem hfile)
        have hneq : sessionNameOf file ≠ sessionNameOf f0 := fun h => hnd.1 (h ▸ hmem)
        obtain ⟨f, t, l, -⟩ := leaveSession_frame (rem i0) f0 acc w
        have hcur1 : Dict.get (sessionNameOf file)
            (leaveSession (rem i0) f0 acc w).2.joinedChannels = some chs := by
          rw [l _ hneq, hcur]
        have := ih (i0 + 1) (leaveSession (rem i0) f0 acc w).1
          (leaveSession (rem i0) f0 acc w).2 hnd.2 j hfile hreach hcur1
        rw [connects_congr _ _ w _ f, show i0 + 1 + j = i0 + (j + 1) by omega] at this
        refine ⟨this.1, fun hc => ?_⟩
        obtain ⟨g1, g2, g3⟩ := this.2 hc
        refine ⟨g1, fun e he hs => ?_, g3⟩
        rcases g2 e he hs with h | h
        · rcases t.mem e h with h1 | h1
          · exact Or.inl h1
          · exact absurd (hs ▸ h1) hneq
        · exact Or.inr h

theorem LedgerInv.nodup (lc : Str → Str) (L : Ledger) (name : Str) (chs : List Str)
    (hL : LedgerInv lc L) (h : Dict.get name L = some chs) : chs.Nodup :=
  (LedgerInv.get lc L name chs hL h).imp (fun hab heq => hab (congrArg lc heq))

theorem leaveSessions_append (rem : Nat → LeaveRemote) (a b : List Str) (i0 : Nat)
    (acc : LeaveAcc) (w : World) (hreach : (leaveSessions rem i0 a acc w).1 = none) :
    leaveSessions rem i0 (a ++ b) acc w =
      leaveSessions rem (i0 + a.length) b (leaveSessions rem i0 a acc w).2.1
        (leaveSessions rem i0 a acc w).2.2 := by
  induction a generalizing i0 acc w with
  | nil => simp [leaveSessions]
  | cons f a ih =>
    simp only [leaveSessions] at hreach
    rw [List.cons_append, List.length_cons,
      show i0 + (a.length + 1) = i0 + 1 + a.length by omega]
    simp only [leaveSessions]
    rcases leaveIteration_cases (rem i0) f acc w with ⟨-, hit⟩ | ⟨-, hit⟩
    · rw [hit] at hreach
      exact absurd hreach (by simp)
    · rw [hit] at hreach ⊢
      simp only at hreach ⊢
      exact ih (i0 + 1) _ _ hreach

theorem leaveSessions_files (rem : Nat → LeaveRemote) (rest : List Str) (i0 : Nat)
    (acc : LeaveAcc) (w : World) : (leaveSessions rem i0 rest acc w).2.2.files = w.files := by
  induction rest generalizing i0 acc w with
  | nil => rfl
  | cons f rest ih =>
    simp only [leaveSessions]
    rcases leaveIteration_cases (rem i0) f acc w with ⟨-, hit⟩ | ⟨-, hit⟩ <;> rw [hit]
    · simp only
      rw [ih, (leaveSession_frame (rem i0) f acc w).1]

theorem leaveSessions_singleton (rem : Nat → LeaveRemote) (i0 : Nat) (file : Str)
    (acc : LeaveAcc) (w : World) :
    leaveSessions rem i0 [file] acc w = leaveIteration (rem i0) file acc w := by
  simp only [leaveSessions]
  rcases leaveIteration_cases (rem i0) file acc w with ⟨-, hit⟩ | ⟨-, hit⟩ <;> rw [hit]

theorem leaveAllPrefix_succ (rem : Nat → LeaveRemote) (w : World) (i : Nat) (file : Str)
    (hfile : (getAvailableSessions w)[i]? = some file)
    (hreach : (leaveAllPrefix rem w i).1 = none) :
    leaveAllPrefix rem w (i + 1) =
      leaveIteration (rem i) file (leaveAllPrefix rem w i).2.1 (leaveAllPrefix rem w i).2.2 := by
  have hi : i < (getAvailableSessions w).length := by
    obtain ⟨h, -⟩ := List.getElem?_eq_some_iff.1 hfile
    exact h
  have hlen : ((getAvailableSessions w).take i).length = i := by
    rw [List.length_take]
    omega
  unfold leaveAllPrefix at hreach ⊢
  rw [List.take_succ, hfile, leaveSessions_append _ _ _ _ _ _ hreach, hlen, Nat.zero_add]
  exact leaveSessions_singleton rem i file _ _

theorem leaveAllPrefix_length (rem : Nat → LeaveRemote) (save : Outcome) (w : World) :
    (confirmLeaveAll rem save w).2 =
      (leaveAllPrefix rem w (getAvailableSessions w).length).2.2 := by
  rw [confirmLeaveAll_world]
  unfold leaveAllPrefix
  rw [List.take_length]

theorem confirmLeaveAll_report (rem : Nat → LeaveRemote) (save : Outcome) (w : World)
    (acc : LeaveAcc) (h : (confirmLeaveAll rem save w).1 = some acc) :
    acc = (leaveSessions rem 0 (getAvailableSessions w) ⟨[], 0, 0⟩ w).2.1 := by
  unfold confirmLeaveAll at h
  split at h
  · exact absurd h (by simp)
  · rename_i acc1 w1 heq
    rw [heq]
    cases save with
    | none =>
      simp only [Option.some.injEq] at h
      exact h.symm
    | some e => exact absurd h (by simp)

theorem leaveSessions_append_thrown (rem : Nat → LeaveRemote) (a b : List Str) (i0 : Nat)
    (acc : LeaveAcc) (w : World) (e : Str) (h : (leaveSessions rem i0 a acc w).1 = some e) :
    leaveSessions rem i0 (a ++ b) acc w = leaveSessions rem i0 a acc w := by
  induction a generalizing i0 acc w with
  | nil => simp [leaveSessions] at h
  | cons f a ih =>
    simp only [leaveSessions] at h
    simp only [List.cons_append, leaveSessions]
    rcases leaveIteration_cases (rem i0) f acc w with ⟨-, hit⟩ | ⟨-, hit⟩
    · rw [hit]
    · rw [hit] at h ⊢
      simp only at h ⊢
      exact ih (i0 + 1) _ _ h

theorem confirmLeaveAll_of_thrown (rem : Nat → LeaveRemote) (save : Outcome) (w : World)
    (k : Nat) (e : Str) (h : (leaveAllPrefix rem w k).1 = some e) :
    confirmLeaveAll rem save w = (none, (leaveAllPrefix rem w k).2.2) := by
  have hfull : leaveSessions rem 0 (getAvailableSessions w) ⟨[], 0, 0⟩ w =
      leaveAllPrefix rem w k := by
    have := leaveSessions_append_thrown rem ((getAvailableSessions w).take k)
      ((getAvailableSessions w).drop k) 0 ⟨[], 0, 0⟩ w e h
    rw [List.take_append_drop] at this
    exact this
  unfold confirmLeaveAll
  rw [hfull]
  split
  · rename_i heq
    rw [heq]
  · rename_i heq
    rw [heq] at h
    exact absurd h (by simp)

/-- C9: on a ledger without case-insensitive duplicates, take a session that
`confirm_leave_all` processes: the file at index `i` of the listing, reached by
the session loop (no earlier iteration threw).  In the iteration that processes
it, with `chs` its non-empty record at that point, the iteration does not
throw; when its connection is established, its record afterwards is exactly the
targets of `chs`, in order, whose leave did not succeed; when the connection
cannot be established, the ledger is unchanged, the only call made is the
failed `connect`, and its report line counts 0 left and all of `chs` failed.
When no two listed files give the same session name, the same holds between the
state before `confirm_leave_all` and the state after it, which is the state the
loop ended in.  A file whose name is a member every object inherits, and not a
record of the ledger, is not processed: line 355 throws, the handler ends in
the state it was in, without a report. -/
theorem confirmLeaveAll_records (lc : Str → Str) (rem : Nat → LeaveRemote) (save : Outcome)
    (w : World) (i : Nat) (file : Str)
    (hinv : LedgerInv lc w.joinedChannels)
    (hfile : (getAvailableSessions w)[i]? = some file)
    (hreach : (leaveAllPrefix rem w i).1 = none) :
    (confirmLeaveAll rem save w).2 =
      (leaveAllPrefix rem w (getAvailableSessions w).length).2.2 ∧
    (∀ chs,
      Dict.get (sessionNameOf file) (leaveAllPrefix rem w i).2.2.joinedChannels = some chs →
      chs ≠ [] →
      (leaveAllPrefix rem w (i + 1)).1 = none ∧
      (connects (rem i) (sessionNameOf file) w = true →
        Dict.get (sessionNameOf file) (leaveAllPrefix rem w (i + 1)).2.2.joinedChannels =
          some (keptTargets (rem i) 0 chs)) ∧
      (connects (rem i) (sessionNameOf file) w = false →
        (leaveAllPrefix rem w (i + 1)).2.2.joinedChannels =
          (leaveAllPrefix rem w i).2.2.joinedChannels ∧
        (∀ e ∈ (leaveAllPrefix rem w (i + 1)).2.2.trace,
          e ∈ (leaveAllPrefix rem w i).2.2.trace ∨ e.call = Call.connect) ∧
        (⟨sessionNameOf file, 0, chs.length⟩ : LeaveLine) ∈
          (leaveAllPrefix rem w (i + 1)).2.1.results)) ∧
    (((getAvailableSessions w).map sessionNameOf).Nodup →
      ∀ chs, Dict.get (sessionNameOf file) w.joinedChannels = some chs → chs ≠ [] →
      (connects (rem i) (sessionNameOf file) w = true →
        Dict.get (sessionNameOf file) (confirmLeaveAll rem save w).2.joinedChannels =
          some (keptTargets (rem i) 0 chs)) ∧
      (connects (rem i) (sessionNameOf file) w = false →
        Dict.get (sessionNameOf file) (confirmLeaveAll rem save w).2.joinedChannels = some chs ∧
        (∀ e ∈ (confirmLeaveAll rem save w).2.trace, e.session = sessionNameOf file →
          e ∈ w.trace ∨ e.call = Call.connect) ∧
        ∀ acc, (confirmLeaveAll rem save w).1 = some acc →
          (⟨sessionNameOf file, 0, chs.length⟩ : LeaveLine) ∈ acc.results)) ∧
    (Dict.lookup (sessionNameOf file) (leaveAllPrefix rem w i).2.2.joinedChannels
        = Lookup.inherited →
      leaveAllPrefix rem w (i + 1) = (some notIterable, (leaveAllPrefix rem w i).2) ∧
      confirmLeaveAll rem save w = (none, (leaveAllPrefix rem w i).2.2)) := by
  refine ⟨leaveAllPrefix_length rem save w, ?_, ?_, ?_⟩
  rotate_left 2
  · intro hinh
    have hsucc : leaveAllPrefix rem w (i + 1) =
        (some notIterable, (leaveAllPrefix rem w i).2) := by
      rw [leaveAllPrefix_succ rem w i file hfile hreach]
      rcases leaveIteration_cases (rem i) file (leaveAllPrefix rem w i).2.1
        (leaveAllPrefix rem w i).2.2 with ⟨-, hit⟩ | ⟨hno, -⟩
      · rw [hit]
      · exact absurd hinh hno
    refine ⟨hsucc, ?_⟩
    have := confirmLeaveAll_of_thrown rem save w (i + 1) notIterable (by rw [hsucc])
    rw [this, hsucc]
  · intro chs hcur hne
    have hinv1 : LedgerInv lc (leaveAllPrefix rem w i).2.2.joinedChannels :=
      leaveSessions_inv lc rem _ 0 _ w hinv
    have hfiles : (leaveAllPrefix rem w i).2.2.files = w.files :=
      leaveSessions_files rem _ 0 _ w
    rw [leaveAllPrefix_succ rem w i file hfile hreach, ← connects_congr _ _ w _ hfiles,
      leaveIteration_of_own (rem i) file _ _ chs hcur]
    exact ⟨rfl, leaveSession_connected (rem i) file _ _ chs hcur hne
        (LedgerInv.nodup lc _ _ chs hinv1 hcur),
      leaveSession_not_connected (rem i) file _ _ chs hcur hne⟩
  · intro hnames chs hcur hne
    have key := leaveSessions_record rem (getAvailableSessions w) 0 ⟨[], 0, 0⟩ w hnames i file
      chs hfile hreach hcur hne (LedgerInv.nodup lc _ _ chs hinv hcur)
    rw [Nat.zero_add] at key
    rw [confirmLeaveAll_world]
    refine ⟨key.1, fun hc => ?_⟩
    obtain ⟨g1, g2, g3⟩ := key.2 hc
    refine ⟨g1, g2, fun acc hacc => ?_⟩
    rw [confirmLeaveAll_report rem save w acc hacc]
    exact g3

theorem confirmLeaveAll_records_witness :
    Dict.get "alice".toList
        (confirmLeaveAll leaveDemoRemote none leaveDemoWorld).2.joinedChannels =
      some (keptTargets (leaveDemoRemote 0) 0
        ["@news".toList, "@sport".toList, "https://t.me/tech".toList]) ∧
    keptTargets (leaveDemoRemote 0) 0
        ["@news".toList, "@sport".toList, "https://t.me/tech".toList] = ["@sport".toList] :=
  ⟨((confirmLeaveAll_records asciiLower leaveDemoRemote none leaveDemoWorld 0
      "alice.session".toList (by decide) (by decide) (by decide)).2.2.1 (by decide)
      ["@news".toList, "@sport".toList, "https://t.me/tech".toList] (by decide) (by decide)).1
      (by decide),
    by decide⟩

/-! ## Delete session -/

theorem Dict.not_mem_keys_delete {α : Type} (name : Str) (d : Dict α) :
    name ∉ (Dict.delete name d).map Prod.fst := by
  intro h
  obtain ⟨e, he, hn⟩ := List.mem_map.1 h
  exact (Dict.mem_delete name d e he).2 hn

theorem deleteLedgerEntry_spec (r : DeleteRemote) (name : Str) (w : World) :
    (deleteLedgerEntry r name w).2.files = w.files ∧
    (deleteLedgerEntry r name w).2.sessionsInfo = w.sessionsInfo ∧
    Dict.get name (deleteLedgerEntry r name w).2.joinedChannels = none ∧
    ∀ other, other ≠ name →
      Dict.get other (deleteLedgerEntry r name w).2.joinedChannels =
        Dict.get other w.joinedChannels := by
  unfold deleteLedgerEntry
  split
  · exact ⟨rfl, rfl, Dict.get_delete_self _ _, fun o ho => Dict.get_delete_other _ _ _ ho⟩
  · rename_i h
    exact ⟨rfl, rfl, Dict.get_of_lookup_inherited _ _ h, fun _ _ => rfl⟩
  · rename_i h
    exact ⟨rfl, rfl, Dict.get_of_lookup_undefined _ _ h, fun _ _ => rfl⟩

theorem deleteProfileEntry_spec (r : DeleteRemote) (name : Str) (w : World) :
    (deleteProfileEntry r name w).2.files = w.files ∧
    (deleteProfileEntry r name w).2.joinedChannels = w.joinedChannels ∧
    Dict.get name (deleteProfileEntry r name w).2.sessionsInfo = none ∧
    ∀ other, other ≠ name →
      Dict.get other (deleteProfileEntry r name w).2.sessionsInfo =
        Dict.get other w.sessionsInfo := by
  unfold deleteProfileEntry
  split
  · exact ⟨rfl, rfl, Dict.get_delete_self _ _, fun o ho => Dict.get_delete_other _ _ _ ho⟩
  · rename_i h
    exact ⟨rfl, rfl, Dict.get_of_lookup_inherited _ _ h, fun _ _ => rfl⟩
  · rename_i h
    exact ⟨rfl, rfl, Dict.get_of_lookup_undefined _ _ h, fun _ _ => rfl⟩

/-- C10: for a session `name` whose blob exists, a delete that ends with the
`deleted` reply leaves no file `name.session`, no ledger entry and no profile
entry for `name`, so the listing no longer holds `name.session`, while every
other file, ledger entry and profile entry is as before; a delete whose
`unlink` throws leaves the whole state, the two maps included, unchanged. -/
theorem deleteSession_frame (r : DeleteRemote) (name : Str) (w : World)
    (hblob : (Dict.get (name ++ sessionExt) w.files).isSome = true) :
    ((deleteSession r name w).1 = DeleteReply.deleted name →
      Dict.get (name ++ sessionExt) (deleteSession r name w).2.files = none ∧
      Dict.get name (deleteSession r name w).2.joinedChannels = none ∧
      Dict.get name (deleteSession r name w).2.sessionsInfo = none ∧
      name ++ sessionExt ∉ getAvailableSessions (deleteSession r name w).2 ∧
      (∀ f, f ≠ name ++ sessionExt →
        Dict.get f (deleteSession r name w).2.files = Dict.get f w.files) ∧
      (∀ n, n ≠ name →
        Dict.get n (deleteSession r name w).2.joinedChannels = Dict.get n w.joinedChannels) ∧
      (∀ n, n ≠ name →
        Dict.get n (deleteSession r name w).2.sessionsInfo = Dict.get n w.sessionsInfo)) ∧
    (r.unlink ≠ none →
      (deleteSession r name w).2 = w ∧
      (deleteSession r name w).2.joinedChannels = w.joinedChannels ∧
      (deleteSession r name w).2.sessionsInfo = w.sessionsInfo ∧
      ∃ msg, (deleteSession r name w).1 = DeleteReply.failed msg) := by
  obtain ⟨blob, hb⟩ := Option.isSome_iff_exists.1 hblob
  cases hu : r.unlink with
  | some e =>
    refine ⟨fun h => ?_, fun _ => ?_⟩
    · simp [deleteSession, hb, hu] at h
    · simp [deleteSession, hb, hu]
  | none =>
    refine ⟨fun h => ?_, fun h => absurd rfl h⟩
    obtain ⟨a1, a2, a3, a4⟩ := deleteLedgerEntry_spec r name
      { w with files := Dict.delete (name ++ sessionExt) w.files }
    obtain ⟨b1, b2, b3, b4⟩ := deleteProfileEntry_spec r name
      (deleteLedgerEntry r name { w with files := Dict.delete (name ++ sessionExt) w.files }).2
    have hw : (deleteSession r name w).2 = (deleteProfileEntry r name
        (deleteLedgerEntry r name
          { w with files := Dict.delete (name ++ sessionExt) w.files }).2).2 := by
      unfold deleteSession at h ⊢
      simp only [hb, hu] at h ⊢
      split at h
      · exact absurd h (by simp)
      · rename_i w2 heq
        simp only [heq]
        split at h
        · exact absurd h (by simp)
        · rename_i w3 heq3
          simp only [heq3]
    rw [hw]
    have hfiles : (deleteProfileEntry r name (deleteLedgerEntry r name
        { w with files := Dict.delete (name ++ sessionExt) w.files }).2).2.files
          = Dict.delete (name ++ sessionExt) w.files := by
      rw [b1, a1]
    refine ⟨by rw [hfiles, Dict.get_delete_self], by rw [b2, a3], b3, ?_,
      fun f hf => by rw [hfiles, Dict.get_delete_other _ _ _ hf],
      fun n hn => by rw [b2, a4 n hn], fun n hn => by rw [b4 n hn, a2]⟩
    intro hm
    unfold getAvailableSessions at hm
    rw [hfiles] at hm
    exact Dict.not_mem_keys_delete _ _ (List.mem_of_mem_filter hm)

theorem deleteSession_frame_witness :
    (deleteSession deleteAllOk "alice".toList demoWorld).1 = DeleteReply.deleted "alice".toList ∧
    getAvailableSessions (deleteSession deleteAllOk "alice".toList demoWorld).2 =
      ["bob.session".toList] ∧
    Dict.get "alice".toList
      (deleteSession deleteAllOk "alice".toList demoWorld).2.joinedChannels = none :=
  ⟨by decide, by decide,
    ((deleteSession_frame deleteAllOk "alice".toList demoWorld (by decide)).1 (by decide)).2.1⟩

/-! ## Pagination -/

theorem ceilDiv_bounds (a b : Nat) (hb : 0 < b) (ha : 0 < a) :
    0 < ceilDiv a b ∧ b * (ceilDiv a b - 1) < a ∧ a ≤ b * ceilDiv a b := by
  unfold ceilDiv
  have h1 := Nat.div_add_mod a b
  have h2 := Nat.mod_lt a hb
  generalize a / b = q at h1 ⊢
  generalize a % b = m at h1 h2 ⊢
  by_cases h : m = 0
  · subst h
    simp only [if_true]
    rw [Nat.add_zero] at h1
    cases q with
    | zero =>
      rw [Nat.mul_zero] at h1
      omega
    | succ q =>
      rw [Nat.mul_succ] at h1
      simp only [Nat.add_sub_cancel]
      refine ⟨by omega, by omega, ?_⟩
      rw [Nat.mul_succ]
      omega
  · simp only [h, if_false, Nat.add_sub_cancel]
    refine ⟨by omega, by omega, ?_⟩
    rw [Nat.mul_succ]
    omega

theorem jsSlice_page {α : Type} (l : List α) (size p : Nat) :
    jsSlice l (p * size) (p * size + size) = (l.drop (size * p)).take size := by
  unfold jsSlice
  rw [List.drop_take, Nat.add_sub_cancel_left, Nat.mul_comm]

theorem pages_flatten {α : Type} (l : List α) (size n : Nat) :
    ((List.range n).map (fun p => jsSlice l (p * size) (p * size + size))).flatten =
      l.take (size * n) := by
  induction n with
  | zero => simp
  | succ n ih =>
    rw [List.range_succ, List.map_append, List.flatten_append, ih, Nat.mul_succ, List.take_add]
    simp [jsSlice_page]

theorem navKeyboard_flatten (action : Str) (p tp : Nat) :
    (navKeyboard action p tp).flatten =
      (if 0 < p then [Button.toPage "Back".toList action (p - 1)] else []) ++
      (if p + 1 < tp then [Button.toPage "Next".toList action (p + 1)] else []) ++
      [Button.toMenu "Menu".toList] := by
  have hint : ((p : Int) < (tp : Int) - 1) ↔ p + 1 < tp := by omega
  unfold navKeyboard
  by_cases h1 : 0 < p <;> by_cases h2 : p + 1 < tp <;> simp [h1, h2, hint]

theorem navKeyboard_buttons (action : Str) (p tp : Nat) (hp : p < tp) :
    (Button.toPage "Next".toList action (p + 1) ∈ (navKeyboard action p tp).flatten ↔
      p + 1 < tp) ∧
    (Button.toPage "Back".toList action (p - 1) ∈ (navKeyboard action p tp).flatten ↔ 0 < p) ∧
    (∀ l a t, Button.toPage l a t ∈ (navKeyboard action p tp).flatten →
      (l = "Next".toList ∧ a = action ∧ t = p + 1 ∧ p + 1 < tp) ∨
      (l = "Back".toList ∧ a = action ∧ t + 1 = p)) ∧
    (∀ t ∈ navTargets (navKeyboard action p tp), t < tp) := by
  simp only [navKeyboard_flatten, navTargets]
  by_cases h1 : 0 < p <;> by_cases h2 : p + 1 < tp
  · simp [h1, h2]
    refine ⟨?_, by omega⟩
    rintro l a t (⟨rfl, rfl, rfl⟩ | ⟨rfl, rfl, rfl⟩)
    · right
      exact ⟨rfl, rfl, by omega⟩
    · left
      exact ⟨rfl, rfl, rfl⟩
  · simp [h1, h2]
    refine ⟨?_, by omega⟩
    rintro l a t rfl rfl rfl
    exact ⟨rfl, rfl, by omega⟩
  · simp [h1, h2]
    rintro l a t rfl rfl rfl
    left
    exact ⟨rfl, rfl, rfl⟩
  · simp [h1, h2]

theorem pageLayout_slices {α : Type} (items : List α) (size : Nat) (action : Str)
    (hsize : 0 < size) :
    PageLayout items size (ceilDiv items.length size)
      (fun p => jsSlice items (p * size) (p * size + size))
      (fun p => navKeyboard action p (ceilDiv items.length size)) action := by
  intro htotal
  obtain ⟨hpos, hlo, hhi⟩ := ceilDiv_bounds items.length size hsize htotal
  generalize ceilDiv items.length size = tp at hpos hlo hhi ⊢
  refine ⟨⟨hlo, hhi⟩, fun p hp => ?_, ?_⟩
  · obtain ⟨n1, n2, n3, n4⟩ := navKeyboard_buttons action p tp hp
    have hlen : (jsSlice items (p * size) (p * size + size)).length
        = min (size * p + size) items.length - size * p := by
      rw [jsSlice_page, List.length_take, List.length_drop]
      generalize size * p = a
      omega
    refine ⟨hlen, fun k hk => ?_, fun hlt => ?_, fun heq => ?_, n1, n2, n3, n4⟩
    · simp only [jsSlice_page] at hk ⊢
      rw [List.length_take] at hk
      rw [List.getElem?_take, if_pos (by omega), List.getElem?_drop]
    · simp only [hlen]
      have h3 : size * (p + 1) ≤ size * (tp - 1) := Nat.mul_le_mul_left _ (by omega)
      rw [Nat.mul_succ] at h3
      generalize size * p = a at h3 ⊢
      generalize size * (tp - 1) = c at h3 hlo
      omega
    · simp only [hlen]
      have h3 : tp - 1 = p := by omega
      rw [h3] at hlo ⊢
      rw [← heq, Nat.mul_succ] at hhi
      generalize size * p = a at hlo hhi ⊢
      omega
  · have := pages_flatten items size tp
    rw [List.take_of_length_le hhi] at this
    exact this

theorem sessionEntries_length (w : World) (start i : Nat) (slice : List Str) :
    (sessionEntries w start i slice).length = slice.length := by
  induction slice generalizing i with
  | nil => rfl
  | cons f rest ih => simp [sessionEntries, ih]

theorem sessionEntries_getElem (w : World) (start i k : Nat) (slice : List Str) (file : Str)
    (h : slice[k]? = some file) :
    (sessionEntries w start i slice)[k]? =
      some ⟨start + (i + k) + 1, sessionNameOf file, shownInfo (sessionNameOf file) w,
        shownJoinedCount (sessionNameOf file) w⟩ := by
  induction slice generalizing i k with
  | nil => simp at h
  | cons f rest ih =>
    cases k with
    | zero =>
      simp only [List.getElem?_cons_zero, Option.some.injEq] at h
      subst h
      simp [sessionEntries, sessionNameOf]
    | succ k =>
      simp only [List.getElem?_cons_succ] at h
      simp only [sessionEntries, List.getElem?_cons_succ]
      rw [ih (i + 1) k h, show i + 1 + k = i + (k + 1) by omega]

/-- C11: for a non-empty session list `buildSessionsPage` lays the sessions out
in `ceil(total / 5)` zero-indexed pages as `PageLayout` describes (page `p`
holds items `5p .. min(5p+5, total) - 1`, every page but the last is full, the
last holds the rest, the pages concatenated are the list, `Next` to `p + 1`
exists exactly when `p` is not the last page, `Back` to `p - 1` exactly when
`p > 0`, no target is out of range), the text of page `p` lists exactly the
items of its slice, numbered from `5p + 1`; and `buildJoinedPage` lays the
tracked targets out the same way with page size 10. -/
theorem buildPages_layout (w : World) (sessions : List Str) :
    PageLayout sessions 5 (ceilDiv sessions.length 5) (sessionsSlice sessions)
      (fun p => (buildSessionsPage w sessions p).keyboard) "sess_p_".toList ∧
    (∀ p, (buildSessionsPage w sessions p).totalPages = ceilDiv sessions.length 5 ∧
      (buildSessionsPage w sessions p).total = sessions.length ∧
      (buildSessionsPage w sessions p).entries.length = (sessionsSlice sessions p).length ∧
      ∀ k file, (sessionsSlice sessions p)[k]? = some file →
        (buildSessionsPage w sessions p).entries[k]? =
          some (⟨5 * p + k + 1, sessionNameOf file, shownInfo (sessionNameOf file) w,
            shownJoinedCount (sessionNameOf file) w⟩ : SessionEntry)) ∧
    PageLayout (allJoinedEntries w.joinedChannels) 10
      (ceilDiv (allJoinedEntries w.joinedChannels).length 10)
      (fun p => (buildJoinedPage w p).entries)
      (fun p => (buildJoinedPage w p).keyboard) "join_p_".toList ∧
    (∀ p, (buildJoinedPage w p).totalPages = ceilDiv (allJoinedEntries w.joinedChannels).length 10 ∧
      (buildJoinedPage w p).total = (allJoinedEntries w.joinedChannels).length) := by
  refine ⟨pageLayout_slices sessions 5 "sess_p_".toList (by decide), fun p => ?_,
    pageLayout_slices (allJoinedEntries w.joinedChannels) 10 "join_p_".toList (by decide),
    fun p => ⟨rfl, rfl⟩⟩
  refine ⟨rfl, rfl, sessionEntries_length w _ 0 _, fun k file hk => ?_⟩
  have := sessionEntries_getElem w (p * SESSIONS_PAGE_SIZE) 0 k (sessionsSlice sessions p) file hk
  rw [Nat.zero_add, show p * SESSIONS_PAGE_SIZE = 5 * p from Nat.mul_comm p 5] at this
  simpa [buildSessionsPage, SESSIONS_PAGE_SIZE, Nat.mul_comm p 5] using this

theorem buildPages_layout_witness :
    (sessionsSlice twelveSessions 0).length = 5 ∧
    (sessionsSlice twelveSessions 1).length = 5 ∧
    (sessionsSlice twelveSessions 2).length = 2 ∧
    ceilDiv twelveSessions.length 5 = 3 ∧
    navTargets (buildSessionsPage demoWorld twelveSessions 0).keyboard = [1] ∧
    navTargets (buildSessionsPage demoWorld twelveSessions 1).keyboard = [0, 2] ∧
    navTargets (buildSessionsPage demoWorld twelveSessions 2).keyboard = [1] :=
  ⟨(((buildPages_layout demoWorld twelveSessions).1 (by decide)).2.1 0 (by decide)).2.2.1
      (by decide),
    by decide, by decide, by decide, by decide, by decide, by decide⟩

/-! ## Session name -/

theorem isDigit_iff (c : Char) : c.isDigit = true ↔ 48 ≤ c.toNat ∧ c.toNat ≤ 57 := by
  simp only [Char.isDigit, Bool.and_eq_true, decide_eq_true_eq, ge_iff_le]
  rfl

theorem isUnsafeChar_iff (c : Char) : isUnsafeChar c = true ↔ c ∈ unsafeChars := by
  simp [isUnsafeChar, unsafeChars, or_assoc]

theorem not_unsafe_of_isDigit (c : Char) (h : c.isDigit = true) : c ∉ unsafeChars := by
  rw [isDigit_iff] at h
  intro hm
  simp only [unsafeChars, List.mem_cons, List.mem_singleton, List.not_mem_nil, or_false] at hm
  rcases hm with rfl | rfl | rfl | rfl | rfl | rfl | rfl | rfl | rfl | rfl <;>
    exact absurd h (by decide)

theorem sanitize_safe (d : Str) : ∀ c ∈ sanitize d, c ∉ unsafeChars := by
  intro c hc
  obtain ⟨a, -, rfl⟩ := List.mem_map.1 hc
  by_cases ha : isUnsafeChar a = true
  · simp only [ha, if_true]
    decide
  · simp only [ha]
    exact fun hm => ha ((isUnsafeChar_iff a).2 hm)

theorem sanitize_getElem (d : Str) (i : Nat) (c : Char) (h : d[i]? = some c) :
    (sanitize d)[i]? = some (if c ∈ unsafeChars then '-' else c) := by
  unfold sanitize
  rw [List.getElem?_map, h]
  by_cases hc : isUnsafeChar c = true
  · simp [hc, (isUnsafeChar_iff c).1 hc]
  · have : c ∉ unsafeChars := fun hm => hc ((isUnsafeChar_iff c).2 hm)
    simp [hc, this]

theorem sliceLast4_safe (p : Str) (hp : IsPlusDigits p) : ∀ c ∈ sliceLast4 p, c ∉ unsafeChars := by
  obtain ⟨ds, rfl, hds, -, -⟩ := hp
  intro c hc
  have hmem : c ∈ '+' :: ds := List.mem_of_mem_drop hc
  rcases List.mem_cons.1 hmem with rfl | h
  · decide
  · exact not_unsafe_of_isDigit c (hds c h)

theorem sliceLast4_length (p : Str) (hp : IsPlusDigits p) : (sliceLast4 p).length = 4 := by
  obtain ⟨ds, rfl, -, h1, -⟩ := hp
  simp only [sliceLast4, List.length_drop, List.length_cons]
  omega

theorem handleFlowPhone_connecting (text : Str) (flow : Flow) (p : Str)
    (h : (handleFlowPhone text flow).1 = PhoneReply.connecting p) : IsPlusDigits p := by
  unfold handleFlowPhone at h
  by_cases ht : testPlusDigits (normalizePhone text) = true
  · simp only [ht, Bool.not_true, Bool.false_eq_true, if_false, PhoneReply.connecting.injEq] at h
    exact h ▸ (testPlusDigits_iff _).1 ht
  · simp [ht] at h

/-- C12: for a non-empty display name `d` and a phone `p` that the phone step
stored in the flow, the derived session name is `sanitize d` when the store has
no file `sanitize d` + `.session`, and `sanitize d` followed by ` (`, the last
four characters of `p` and `)` when it has one; `sanitize` replaces each of the
ten characters `/ \ ? % * : | " < >` by `-` and keeps every other character;
the derived name holds none of the ten. -/
theorem deriveSessionName_spec (d p text : Str) (flow : Flow) (w : World) (hd : d ≠ [])
    (hp : (handleFlowPhone text flow).1 = PhoneReply.connecting p) :
    ((Dict.get (sanitize d ++ sessionExt) w.files).isSome = false →
      deriveSessionName d p w = sanitize d) ∧
    ((Dict.get (sanitize d ++ sessionExt) w.files).isSome = true →
      deriveSessionName d p w = sanitize d ++ " (".toList ++ p.drop (p.length - 4) ++ ")".toList) ∧
    (p.drop (p.length - 4)).length = 4 ∧
    (sanitize d).length = d.length ∧
    (∀ (i : Nat) (c : Char), d[i]? = some c →
      (sanitize d)[i]? = some (if c ∈ unsafeChars then '-' else c)) ∧
    (∀ c ∈ deriveSessionName d p w, c ∉ unsafeChars) := by
  have hplus := handleFlowPhone_connecting text flow p hp
  have h1 : (Dict.get (sanitize d ++ sessionExt) w.files).isSome = false →
      deriveSessionName d p w = sanitize d := by
    intro h
    simp [deriveSessionName, hd, h]
  have h2 : (Dict.get (sanitize d ++ sessionExt) w.files).isSome = true →
      deriveSessionName d p w =
        sanitize d ++ " (".toList ++ p.drop (p.length - 4) ++ ")".toList := by
    intro h
    simp [deriveSessionName, hd, h, sliceLast4]
  refine ⟨h1, h2, sliceLast4_length p hplus, by simp [sanitize], sanitize_getElem d, ?_⟩
  intro c hc
  cases hex : (Dict.get (sanitize d ++ sessionExt) w.files).isSome with
  | false =>
    rw [h1 hex] at hc
    exact sanitize_safe d c hc
  | true =>
    rw [h2 hex] at hc
    simp only [List.mem_append] at hc
    rcases hc with ((hc | hc) | hc) | hc
    · exact sanitize_safe d c hc
    · have : c = ' ' ∨ c = '(' := by simpa using hc
      rcases this with rfl | rfl <;> decide
    · exact sliceLast4_safe p hplus c hc
    · have : c = ')' := by simpa using hc
      subst this
      decide

theorem deriveSessionName_spec_witness :
    deriveSessionName "A/B".toList "+8801234567890".toList demoWorld = "A-B".toList ∧
    deriveSessionName "alice".toList "+8801234567890".toList demoWorld =
      "alice (7890)".toList ∧
    ∀ c ∈ deriveSessionName "alice".toList "+8801234567890".toList demoWorld, c ∉ unsafeChars :=
  ⟨by decide, by decide,
    (deriveSessionName_spec "alice".toList "+8801234567890".toList "+880 1234 567890".toList
      ⟨FlowStep.phone, 7, none⟩ demoWorld (by decide) (by decide)).2.2.2.2.2⟩

/-! ## Auto-detected phone numbers -/

theorem not_space_of_isDigit (c : Char) (h : c.isDigit = true) : isJsSpace c = false := by
  rw [isDigit_iff] at h
  simp only [isJsSpace, decide_eq_false_iff_not, List.mem_cons, List.mem_singleton,
    List.not_mem_nil, or_false]
  omega

theorem kept_of_digit_or_plus (c : Char) (h : (c.isDigit || c == '+') = true) :
    (!(isJsSpace c || c == '-' || c == '(' || c == ')' || c == '.')) = true := by
  rw [Bool.or_eq_true] at h
  rcases h with h | h
  · have hs := not_space_of_isDigit c h
    rw [isDigit_iff] at h
    have e1 : (c == '-') = false := by
      rw [beq_eq_false_iff_ne]
      rintro rfl
      exact absurd h (by decide)
    have e2 : (c == '(') = false := by
      rw [beq_eq_false_iff_ne]
      rintro rfl
      exact absurd h (by decide)
    have e3 : (c == ')') = false := by
      rw [beq_eq_false_iff_ne]
      rintro rfl
      exact absurd h (by decide)
    have e4 : (c == '.') = false := by
      rw [beq_eq_false_iff_ne]
      rintro rfl
      exact absurd h (by decide)
    simp [hs, e1, e2, e3, e4]
  · have : c = '+' := by simpa using h
    subst this
    decide

theorem stripNonPhone_stripPhonePunct (text : Str) :
    stripNonPhone (stripPhonePunct text) = stripNonPhone text := by
  unfold stripNonPhone stripPhonePunct
  rw [List.filter_filter]
  apply List.filter_congr
  intro c _
  by_cases h : (c.isDigit || c == '+') = true
  · rw [h, kept_of_digit_or_plus c h]
    rfl
  · simp only [Bool.not_eq_true] at h
    rw [h]
    rfl

theorem stripNonPhone_of_isPlusDigits (s : Str) (h : IsPlusDigits s) : stripNonPhone s = s := by
  obtain ⟨ds, rfl, hds, -, -⟩ := h
  unfold stripNonPhone
  rw [List.filter_eq_self]
  intro c hc
  rcases List.mem_cons.1 hc with rfl | hc
  · decide
  · simp [hds c hc]

theorem testOptPlusDigits_imp (s : Str) (h : testOptPlusDigits s = true) :
    IsPlusDigits s ∨ (IsPlusDigits ('+' :: s) ∧ startsWith s ['+'] = false) := by
  unfold testOptPlusDigits at h
  split at h
  · rename_i ds
    left
    rw [← testPlusDigits_iff]
    simpa [testPlusDigits] using h
  · rename_i hne
    right
    have hm : matchDigits 10 15 s = some [] := by
      split at h
      · assumption
      · exact absurd h (by simp)
    have hd := (matchDigits_eq_some_nil 15 10 s).1 hm
    refine ⟨⟨s, rfl, hd⟩, ?_⟩
    cases s with
    | nil => rfl
    | cons c cs =>
      have hc : c ≠ '+' := fun hc => hne cs (by rw [hc])
      have : ('+' == c) = false := by
        rw [beq_eq_false_iff_ne]
        exact fun h => hc h.symm
      simp [startsWith, List.isPrefixOf, this]

theorem looksLikePhone_normalize (text : Str) (h : looksLikePhone text = true) :
    IsPlusDigits (normalizePhone text) := by
  unfold looksLikePhone at h
  have hs := stripNonPhone_stripPhonePunct text
  unfold normalizePhone
  simp only
  rw [← hs]
  rcases testOptPlusDigits_imp _ h with hp | ⟨hp, hst⟩
  · rw [stripNonPhone_of_isPlusDigits _ hp]
    have hst : startsWith (stripPhonePunct text) ['+'] = true := by
      obtain ⟨ds, hds, -⟩ := hp
      rw [hds]
      simp [startsWith, List.isPrefixOf]
    rw [hst]
    exact hp
  · have hkeep : stripNonPhone (stripPhonePunct text) = stripPhonePunct text := by
      have := stripNonPhone_of_isPlusDigits _ hp
      unfold stripNonPhone at this ⊢
      simp only [List.filter_cons] at this
      simpa using this
    rw [hkeep, hst]
    simpa using hp

theorem routeText_phoneFlow (text : Str) (h : routeText text = TextRoute.phoneFlow) :
    looksLikePhone text = true := by
  unfold routeText at h
  split at h
  · exact absurd h (by simp)
  · split at h
    · assumption
    · exact absurd h (by simp)

/-- C15: a text that passes the phone test of the text handler (which every text
routed to the phone flow does) is accepted by the phone step then run on it:
its normalisation is `+` followed by 10 to 15 digits, and the reply is the
`connecting` one, never `invalidFormat`. -/
theorem autoPhoneFlow_accepts (text : Str) (chatId : Nat) (h : looksLikePhone text = true) :
    IsPlusDigits (normalizePhone text) ∧
    autoPhoneFlow text chatId =
      (PhoneReply.connecting (normalizePhone text),
        ⟨FlowStep.connecting, chatId, some (normalizePhone text)⟩) ∧
    (autoPhoneFlow text chatId).1 ≠ PhoneReply.invalidFormat ∧
    (∀ t, routeText t = TextRoute.phoneFlow → looksLikePhone t = true) := by
  have hp := looksLikePhone_normalize text h
  have ht := (testPlusDigits_iff _).2 hp
  have he : autoPhoneFlow text chatId =
      (PhoneReply.connecting (normalizePhone text),
        ⟨FlowStep.connecting, chatId, some (normalizePhone text)⟩) := by
    simp [autoPhoneFlow, handleFlowPhone, ht]
  refine ⟨hp, he, ?_, routeText_phoneFlow⟩
  rw [he]
  simp

theorem autoPhoneFlow_accepts_witness :
    routeText "880 (123) 456-7890".toList = TextRoute.phoneFlow ∧
    autoPhoneFlow "880 (123) 456-7890".toList 7 =
      (PhoneReply.connecting (normalizePhone "880 (123) 456-7890".toList),
        ⟨FlowStep.connecting, 7, some (normalizePhone "880 (123) 456-7890".toList)⟩) ∧
    normalizePhone "880 (123) 456-7890".toList = "+8801234567890".toList :=
  ⟨by decide, (autoPhoneFlow_accepts "880 (123) 456-7890".toList 7 (by decide)).2.1, by decide⟩

/-! ## Failed login -/

theorem FlowMap.get_after_delete (userId : Nat) (m : FlowMap) :
    FlowMap.get userId (FlowMap.delete userId m) = none := by
  induction m with
  | nil => rfl
  | cons e rest ih =>
    obtain ⟨k, f⟩ := e
    by_cases hk : k = userId
    · simp [FlowMap.delete, hk, ih]
    · simp [FlowMap.delete, hk, FlowMap.get, ih]

/-- C13: when the handshake of a login fails (`client.start` throws: code or
password rejected, connection failed; or `getMe` throws), the run writes no
file, the files of the store and the profile map are as before, and the flow
registry holds no entry for the operator. -/
theorem runSessionCreation_failed (r : AuthRemote) (userId : Nat) (flow : Flow) (phone : Str)
    (b : Bot) (hfail : r.start ≠ none ∨ ∃ e, r.getMe = Except.error e) :
    (runSessionCreation r userId flow phone b).world = b.world ∧
    (runSessionCreation r userId flow phone b).world.files = b.world.files ∧
    (runSessionCreation r userId flow phone b).world.sessionsInfo = b.world.sessionsInfo ∧
    (runSessionCreation r userId flow phone b).written = b.written ∧
    FlowMap.get userId (runSessionCreation r userId flow phone b).pendingFlows = none := by
  have key : (runSessionCreation r userId flow phone b).world = b.world ∧
      (runSessionCreation r userId flow phone b).written = b.written ∧
      FlowMap.get userId (runSessionCreation r userId flow phone b).pendingFlows = none := by
    unfold runSessionCreation initiateSessionCreation
    cases hs : r.start with
    | some e => exact ⟨rfl, rfl, FlowMap.get_after_delete _ _⟩
    | none =>
      rcases hfail with h | ⟨e, h⟩
      · exact absurd hs h
      · rw [h]
        exact ⟨rfl, rfl, FlowMap.get_after_delete _ _⟩
  exact ⟨key.1, by rw [key.1], by rw [key.1], key.2.1, key.2.2⟩

theorem runSessionCreation_failed_witness :
    (runSessionCreation loginCodeRejected 1 ⟨FlowStep.connecting, 7, some "+8801234567890".toList⟩
        "+8801234567890".toList johnBot).world.files = johnBot.world.files ∧
    FlowMap.get 1
      (runSessionCreation loginCodeRejected 1
        ⟨FlowStep.connecting, 7, some "+8801234567890".toList⟩
        "+8801234567890".toList johnBot).pendingFlows = none :=
  ⟨(runSessionCreation_failed loginCodeRejected 1 _ _ johnBot (Or.inl (by decide))).2.1,
    (runSessionCreation_failed loginCodeRejected 1 _ _ johnBot (Or.inl (by decide))).2.2.2.2⟩

/-! ## Name collisions -/

/-- C14 fails on the code: with the sessions `John` and `John (7890)` in the
store, a login of display name `John` with a phone ending in `7890` derives the
name `John (7890)`, already in the store, and the write replaces that session's
blob; with only `Account 2` in the store, a login without a display name
derives `Account 2` and replaces its blob as well. -/
theorem deriveSessionName_overwrites :
    deriveSessionName "John".toList "+8801234567890".toList johnBot.world =
      "John (7890)".toList ∧
    "John (7890).session".toList ∈ getAvailableSessions johnBot.world ∧
    Dict.get "John (7890).session".toList johnBot.world.files = some "1Other".toList ∧
    Dict.get "John (7890).session".toList
      (runSessionCreation loginJohn 1 ⟨FlowStep.connecting, 7, some "+8801234567890".toList⟩
        "+8801234567890".toList johnBot).world.files = some "1New".toList ∧
    deriveSessionName [] "+8801234567890".toList accountBot.world = "Account 2".toList ∧
    Dict.get "Account 2.session".toList accountBot.world.files = some "1Other".toList ∧
    Dict.get "Account 2.session".toList
      (runSessionCreation loginNameless 1 ⟨FlowStep.connecting, 7, some "+8801234567890".toList⟩
        "+8801234567890".toList accountBot).world.files = some "1New".toList := by
  decide

/-! ## Leave-all counts -/

theorem leaveTargets_counts (r : LeaveRemote) (name : Str) (rest : List Str) (li : Nat)
    (c : LeaveCounters) (w : World) :
    (leaveTargets r name li rest c w).1.sessionSuccess +
        (leaveTargets r name li rest c w).1.sessionFail =
      c.sessionSuccess + c.sessionFail + rest.length ∧
    (leaveTargets r name li rest c w).1.totalSuccess +
        (leaveTargets r name li rest c w).1.totalFail =
      c.totalSuccess + c.totalFail + rest.length := by
  induction rest generalizing li c w with
  | nil => exact ⟨rfl, rfl⟩
  | cons link rest ih =>
    simp only [leaveTargets, List.length_cons]
    generalize (if li > 0 then w.log name (Call.sleep 2000) none else w) = w1
    cases hok : (leaveTarget (r.target li) name link w1).1 with
    | true =>
      obtain ⟨h1, h2⟩ := ih (li + 1)
        { c with sessionSuccess := c.sessionSuccess + 1, totalSuccess := c.totalSuccess + 1 }
        (leaveTarget (r.target li) name link w1).2
      simp only [if_true]
      simp only at h1 h2
      omega
    | false =>
      obtain ⟨h1, h2⟩ := ih (li + 1)
        { c with sessionFail := c.sessionFail + 1, totalFail := c.totalFail + 1 }
        (leaveTarget (r.target li) name link w1).2
      simp only [Bool.false_eq_true, if_false]
      simp only at h1 h2
      omega

/-- What the code reports for a processed session: left plus failed is the
number of its targets, counted twice when the session connected and
`disconnect` threw; the grand totals grow by the same amount. -/
theorem leaveSession_counts (r : LeaveRemote) (file : Str) (acc : LeaveAcc) (w : World)
    (chs : List Str) (hcur : Dict.get (sessionNameOf file) w.joinedChannels = some chs)
    (hne : chs ≠ []) :
    ∃ left failed,
      (leaveSession r file acc w).1.results =
        acc.results ++ [⟨sessionNameOf file, left, failed⟩] ∧
      left + failed = chs.length +
        (if connects r (sessionNameOf file) w = true ∧ r.disconnect ≠ none then chs.length
          else 0) ∧
      (leaveSession r file acc w).1.totalSuccess + (leaveSession r file acc w).1.totalFail =
        acc.totalSuccess + acc.totalFail + (left + failed) := by
  have hlen : ¬ chs.length = 0 := by simpa using hne
  unfold leaveSession
  simp only [hcur, Option.getD_some, hlen, if_false]
  cases hc : connects r (sessionNameOf file) w with
  | false =>
    obtain ⟨h1, h2, -, -⟩ := leaveSessionBody_not_connected r (sessionNameOf file) chs
      ⟨0, 0, acc.totalSuccess, acc.totalFail⟩ w hc
    cases hb : (leaveSessionBody r (sessionNameOf file) chs
        ⟨0, 0, acc.totalSuccess, acc.totalFail⟩ w).1 with
    | none => exact absurd hb h1
    | some e =>
      refine ⟨0, chs.length, ?_, by simp, ?_⟩
      · simp [h2]
      · simp only [h2]
        omega
  | true =>
    simp only [connects, Bool.and_eq_true, Option.isSome_iff_exists, Option.isNone_iff_eq_none]
      at hc
    obtain ⟨⟨⟨blob, hb⟩, hr⟩, hcon⟩ := hc
    obtain ⟨h1, h2⟩ := leaveTargets_counts r (sessionNameOf file) chs 0
      ⟨0, 0, acc.totalSuccess, acc.totalFail⟩ (w.log (sessionNameOf file) Call.connect none)
    simp only at h1 h2
    unfold leaveSessionBody
    simp only [hb, hr, hcon]
    cases hd : r.disconnect with
    | none =>
      refine ⟨_, _, rfl, ?_, ?_⟩
      · simp only [ne_eq, not_true_eq_false, and_false, if_false]
        omega
      · simp only
        omega
    | some e =>
      refine ⟨_, _, rfl, ?_, ?_⟩
      · simp only [ne_eq, reduceCtorEq, not_false_eq_true, and_self, if_true]
        omega
      · simp only
        omega

/-- C16 fails on the code: when every leave succeeds and `disconnect` throws,
the outer `catch` adds the number of targets to the failed counts once more, so
a session with one tracked target is reported as 1 left, 1 failed, and the
totals are 1 and 1. -/
theorem confirmLeaveAll_double_count :
    (Dict.get "alice".toList oneTargetWorld.joinedChannels).map List.length = some 1 ∧
    (confirmLeaveAll disconnectThrows none oneTargetWorld).1 =
      some ⟨[⟨"alice".toList, 1, 1⟩], 1, 1⟩ := by
  decide

/-! ## Session names that are members of `Object.prototype` -/

theorem confirmLeaveAll_inherited_name :
    (leaveAllPrefix leaveAllOk inheritedWorld 1).1 = some notIterable ∧
    confirmLeaveAll leaveAllOk none inheritedWorld = (none, inheritedWorld) ∧
    Dict.get "dave".toList (confirmLeaveAll leaveAllOk none inheritedWorld).2.joinedChannels =
      some ["@a".toList, "@b".toList] := by
  decide

theorem joinChannelWithSession_inherited_name :
    (joinChannelWithSession asciiLower joinAllOk "constructor".toList "@a".toList
        inheritedWorld).1 = ⟨false, some someNotFunction⟩ ∧
    (joinChannelWithSession asciiLower joinAllOk "constructor".toList "@a".toList
        inheritedWorld).2.joinedChannels = inheritedWorld.joinedChannels ∧
    (joinChannelWithSession asciiLower joinAllOk "constructor".toList "@a".toList
        inheritedWorld).2.trace =
      [⟨"constructor".toList, Call.connect, true⟩,
        ⟨"constructor".toList, Call.joinChannel "a".toList, true⟩] := by
  decide

theorem buildSessionsPage_inherited_name :
    (buildSessionsPage inheritedWorld (getAvailableSessions inheritedWorld) 0).entries =
      [⟨1, "constructor".toList, some undefinedProfile, 1⟩, ⟨2, "dave".toList, none, 2⟩] := by
  decide

end AutoJoin
